import Mathlib

set_option maxRecDepth 8000

/- Verification of the XLIFF translator pipeline (src/main.py).
   Texts, attribute values and cache keys are modelled as lists of
   characters; Python dicts keyed by strings are modelled as association
   lists in insertion order. -/

abbrev Chars := List Char

/-- The conversion characters accepted after a percent sign by
    FORMAT_SPECIFIER_PATTERN (main.py line 53). -/
def formatSpecChars : Chars := "@%diouxXfeEgGcs".data

/-- Membership in the percent conversion character class. -/
def specChar (c : Char) : Bool := formatSpecChars.contains c

/-- Splits a character list at the first occurrence of stop: the characters
    before it and those after it, or none when stop never occurs.  This is
    the regex piece matching a run of non-stop characters followed by stop,
    used both for brace spans and for force-fix attribute values. -/
def splitUntil (stop : Char) : Chars → Option (Chars × Chars)
  | [] => none
  | c :: r => if c = stop then some ([], r) else (splitUntil stop r).map (fun p => (c :: p.1, p.2))

/-- One piece of the regex scan performed by FORMAT_SPECIFIER_PATTERN.sub:
    an unmatched character copied verbatim, or one matched specifier. -/
inductive Chunk where
  | lit (c : Char)
  | spec (s : Chars)
deriving DecidableEq

/-- Left-to-right scan of FORMAT_SPECIFIER_PATTERN (main.py lines 53, 89):
    at each position the engine matches a percent conversion (percent sign
    plus one class character) or a brace span (opening brace, a run of
    non-closing-brace characters, closing brace), and otherwise advances a
    single character.  Fueled structural recursion; scanText passes the
    text length as fuel, which always suffices because every step consumes
    at least one character. -/
def scanAux : Nat → Chars → List Chunk
  | _, [] => []
  | 0, s => s.map Chunk.lit
  | Nat.succ f, c :: rest =>
    if c = '%' then
      match rest with
      | [] => [Chunk.lit '%']
      | d :: rest2 =>
        if specChar d then Chunk.spec ['%', d] :: scanAux f rest2
        else Chunk.lit '%' :: scanAux f (d :: rest2)
    else if c = '\x7b' then
      match splitUntil '\x7d' rest with
      | some (inside, after) => Chunk.spec ('\x7b' :: inside ++ ['\x7d']) :: scanAux f after
      | none => Chunk.lit '\x7b' :: scanAux f rest
    else Chunk.lit c :: scanAux f rest

/-- The regex scan of a text, with its length as fuel. -/
def scanText (t : Chars) : List Chunk := scanAux t.length t

/-- Reassembles the scanned text (proved to be the identity below). -/
def renderOrig : List Chunk → Chars
  | [] => []
  | Chunk.lit c :: cs => c :: renderOrig cs
  | Chunk.spec s :: cs => s ++ renderOrig cs

/-- The fixed marker part of PLACEHOLDER_TEMPLATE (main.py line 54). -/
def marker : Chars := "PLACEHOLDERXYZ".data

/-- PLACEHOLDER_TEMPLATE.format(i): the synthetic token of index i. -/
def token (i : Nat) : Chars := marker ++ (Nat.repr i).data

/-- The masked text: every match replaced by its sequence-index token. -/
def renderMasked (i : Nat) : List Chunk → Chars
  | [] => []
  | Chunk.lit c :: cs => c :: renderMasked i cs
  | Chunk.spec _ :: cs => token i ++ renderMasked (i + 1) cs

/-- The placeholder map in insertion order: token of index i maps to the
    matched substring. -/
def mapFrom (i : Nat) : List Chunk → List (Chars × Chars)
  | [] => []
  | Chunk.lit _ :: cs => mapFrom i cs
  | Chunk.spec s :: cs => (token i, s) :: mapFrom (i + 1) cs

/-- The matched substrings of a scan, in order. -/
def specsOf : List Chunk → List Chars
  | [] => []
  | Chunk.lit _ :: cs => specsOf cs
  | Chunk.spec s :: cs => s :: specsOf cs

/-- FormatSpecifierHandler.extract_placeholders (main.py lines 70-90). -/
def extract_placeholders (text : Chars) : Chars × List (Chars × Chars) :=
  (renderMasked 0 (scanText text), mapFrom 0 (scanText text))

/-- Python str.replace for a non-empty pattern: replaces every
    non-overlapping occurrence, scanning left to right.  Fueled; the
    wrapper replaceAll passes the length, which always suffices. -/
def replaceAllAux (patt repl : Chars) : Nat → Chars → Chars
  | _, [] => []
  | 0, s => s
  | Nat.succ f, c :: rest =>
    if patt ≠ [] ∧ patt.isPrefixOf (c :: rest) then
      repl ++ replaceAllAux patt repl f ((c :: rest).drop patt.length)
    else c :: replaceAllAux patt repl f rest

/-- Python str.replace with length fuel. -/
def replaceAll (patt repl s : Chars) : Chars := replaceAllAux patt repl s.length s

/-- FormatSpecifierHandler.restore_placeholders (main.py lines 92-103):
    sequentially replaces each token by its original, in insertion order. -/
def restore_placeholders (text : Chars) (placeholder_map : List (Chars × Chars)) : Chars :=
  if text = [] ∨ placeholder_map = [] then text
  else placeholder_map.foldl (fun acc p => replaceAll p.1 p.2 acc) text

/-- LANGUAGE_CODE_MAPPING (main.py lines 59-64). -/
def LANGUAGE_CODE_MAPPING : List (Chars × Chars) :=
  [("zh-Hans".data, "zh-cn".data), ("zh-Hant".data, "zh-tw".data), ("en-GB".data, "en".data)]

/-- Association-list lookup mirroring Python dict access: first matching key. -/
def lookupKV {α : Type} (m : List (Chars × α)) (k : Chars) : Option α :=
  match m with
  | [] => none
  | (a, v) :: r => if a = k then some v else lookupKV r k

/-- Translator._map_language_code (main.py lines 122-127). -/
def mapLanguageCode (lang_code : Chars) : Chars :=
  (lookupKV LANGUAGE_CODE_MAPPING lang_code).getD lang_code

/-- The Python guard "not text or text.strip() == ''": true exactly when
    every character is whitespace. -/
def isBlank (t : Chars) : Bool := t.all (fun c => c.isWhitespace)

/-- Python str.split() with no separator: maximal nonempty words between
    whitespace runs; acc holds the current word reversed. -/
def splitWsAux : Chars → Chars → List Chars
  | acc, [] => if acc = [] then [] else [acc.reverse]
  | acc, c :: r =>
    if c.isWhitespace then
      if acc = [] then splitWsAux [] r else acc.reverse :: splitWsAux [] r
    else splitWsAux (c :: acc) r

/-- Python str.split() with no separator. -/
def splitWs (t : Chars) : List Chars := splitWsAux [] t

/-- The literal cache key f-string of main.py line 142: source, target and
    text joined by colons. -/
def cacheKey (source_lang target_lang text : Chars) : Chars :=
  source_lang ++ ':' :: target_lang ++ ':' :: text

abbrev Cache := List (Chars × Chars)

/-- The external googletrans call: may fail (raise) for any reason. -/
abbrev Backend := Chars → Chars → Chars → Option Chars

structure TransResult where
  text : Chars
  cache : Cache
  backendCalls : Nat
deriving DecidableEq

namespace Translator

/-- Translator.translate (main.py lines 129-176): blank short-circuit,
    locale remapping for the backend only, cache lookup on the unmapped
    colon-joined key, placeholder masking, the pure-placeholder
    short-circuit, the backend call, restoration, cache write; on backend
    failure the original text is returned and nothing is cached. -/
def translate (b : Backend) (cache : Cache) (text source_lang target_lang : Chars) : TransResult :=
  if isBlank text then ⟨text, cache, 0⟩
  else
    let google_source_lang := mapLanguageCode source_lang
    let google_target_lang := mapLanguageCode target_lang
    let cache_key := cacheKey source_lang target_lang text
    match lookupKV cache cache_key with
    | some v => ⟨v, cache, 0⟩
    | none =>
      let ep := extract_placeholders text
      if (splitWs ep.1).all (fun w => (ep.2.map Prod.fst).contains w) then ⟨text, cache, 0⟩
      else
        match b google_source_lang google_target_lang ep.1 with
        | some translation =>
          let final := restore_placeholders translation ep.2
          ⟨final, (cache_key, final) :: cache, 1⟩
        | none => ⟨text, cache, 1⟩

end Translator

structure TargetElem where
  text : Option Chars
  state : Option Chars
deriving DecidableEq

structure TransUnit where
  source : Option (Option Chars)
  target : Option TargetElem
deriving DecidableEq

structure FileElem where
  targetLanguage : Option Chars
  original : Option Chars
deriving DecidableEq

structure XliffDoc where
  files : List FileElem
  units : List TransUnit
deriving DecidableEq

/-- Python str.strip(): drop leading and trailing whitespace. -/
def pyStrip (t : Chars) : Chars :=
  ((t.dropWhile Char.isWhitespace).reverse.dropWhile Char.isWhitespace).reverse

/-- The state value marking a finished unit. -/
def translatedLit : Chars := "translated".data

/-- Completeness of a unit as worded by the specification and claim C3:
    the target element exists, its text is non-empty after stripping, and
    its state equals "translated".  Stated from the claim in order to
    compare it with the retranslation condition of main.py line 242. -/
def unitComplete (u : TransUnit) : Bool :=
  match u.target with
  | none => false
  | some t =>
    match t.text with
    | none => false
    | some s => (pyStrip s != []) && (t.state.getD [] == translatedLit)

structure UnitResult where
  unit : TransUnit
  cache : Cache
  translatedN : Nat
  backendCalls : Nat
deriving DecidableEq

/-- One iteration of the trans-unit loop of XliffTranslator.translate_file
    (main.py lines 227-252): a unit without a source element is skipped
    entirely; otherwise the target element is created when absent, and the
    unit is retranslated when the target text is None, strips to empty, or
    the state differs from "translated".  translatedN counts exactly the
    units for which the gateway Translator.translate was invoked. -/
def processUnit (b : Backend) (source_lang target_lang : Chars) (cache : Cache) (u : TransUnit) : UnitResult :=
  match u.source with
  | none => ⟨u, cache, 0, 0⟩
  | some srcText =>
    let source_text := srcText.getD []
    let tgt := u.target.getD ⟨none, none⟩
    let current_state := tgt.state.getD []
    if tgt.text = none ∨ pyStrip (tgt.text.getD []) = [] ∨ current_state ≠ translatedLit then
      let r := Translator.translate b cache source_text source_lang target_lang
      ⟨⟨u.source, some ⟨some r.text, some translatedLit⟩⟩, r.cache, 1, r.backendCalls⟩
    else ⟨⟨u.source, some tgt⟩, cache, 0, 0⟩

structure UnitsResult where
  units : List TransUnit
  cache : Cache
  translatedN : Nat
  backendCalls : Nat
deriving DecidableEq

/-- The trans-unit loop of translate_file over the whole unit list, with the
    translation cache threaded left to right. -/
def processUnits (b : Backend) (source_lang target_lang : Chars) (cache : Cache) : List TransUnit → UnitsResult
  | [] => ⟨[], cache, 0, 0⟩
  | u :: us =>
    let r := processUnit b source_lang target_lang cache u
    let rest := processUnits b source_lang target_lang r.cache us
    ⟨r.unit :: rest.units, rest.cache, r.translatedN + rest.translatedN, r.backendCalls + rest.backendCalls⟩

/-- The target-language update of one file element (main.py lines 202-207):
    the attribute is set only when its current value, read with an empty
    default, differs from the configured target language. -/
def setFileTargetLanguage (target_lang : Chars) (f : FileElem) : FileElem :=
  if f.targetLanguage.getD [] ≠ target_lang then ⟨some target_lang, f.original⟩ else f

structure FileResult where
  doc : XliffDoc
  cache : Cache
  success : Bool
  totalUnits : Nat
  translatedN : Nat
  backendCalls : Nat
deriving DecidableEq

/-- XliffTranslator.translate_file on a successfully parsed document
    (main.py lines 187-259): the target-language pass over every file
    element, the defensive second pass, the unit loop, and the write, which
    the model treats as succeeding, so success is true. -/
def translate_file (b : Backend) (source_lang target_lang : Chars) (cache : Cache) (doc : XliffDoc) : FileResult :=
  let files1 := doc.files.map (setFileTargetLanguage target_lang)
  let files2 := files1.map (setFileTargetLanguage target_lang)
  let r := processUnits b source_lang target_lang cache doc.units
  ⟨⟨files2, r.units⟩, r.cache, true, doc.units.length, r.translatedN, r.backendCalls⟩

/-- verify_xliff_consistency on a parsed document (main.py lines 266-293):
    every file element must carry the configured target language, the value
    being read with an empty default. -/
def verifyDoc (doc : XliffDoc) (target_lang : Chars) : Bool :=
  doc.files.all (fun f => f.targetLanguage.getD [] == target_lang)

/-- The raw-text attribute pattern of the force-fix regex (main.py 425). -/
def tlPat : Chars := "target-language=\"".data

/-- XclocBundle._force_fix_xliff_target_language (main.py lines 412-436):
    re.sub of the pattern target-language="[^"]*" by the replacement
    target-language="<target>" over the raw file text, scanning left to
    right; where the literal prefix matches but no closing quote follows,
    the engine advances a single character.  Fueled; forceFix passes the
    text length as fuel, which always suffices. -/
def forceFixAux (target_lang : Chars) : Nat → Chars → Chars
  | _, [] => []
  | 0, s => s
  | Nat.succ f, c :: rest =>
    if tlPat.isPrefixOf (c :: rest) then
      match splitUntil '"' ((c :: rest).drop tlPat.length) with
      | some (_, after) => tlPat ++ target_lang ++ '"' :: forceFixAux target_lang f after
      | none => c :: forceFixAux target_lang f rest
    else c :: forceFixAux target_lang f rest

/-- The force-fix substitution with length fuel. -/
def forceFix (target_lang s : Chars) : Chars := forceFixAux target_lang s.length s

/-- Key of the manifest field owned by the pipeline. -/
def targetLocaleKey : Chars := "targetLocale".data

/-- Key of the manifest field holding the source locale. -/
def developmentRegionKey : Chars := "developmentRegion".data

/-- Python dict assignment on a JSON object with unique keys, preserving
    insertion order: replace the value in place when the key is present,
    append the pair otherwise (main.py line 362). -/
def updateTargetLocale {α : Type} (m : List (Chars × α)) (v : α) : List (Chars × α) :=
  if (m.map Prod.fst).contains targetLocaleKey then
    m.map (fun kv => if kv.1 = targetLocaleKey then (kv.1, v) else kv)
  else m ++ [(targetLocaleKey, v)]

structure ManifestWrite (α : Type) where
  contents : List (Chars × α)
  indent : Nat
  ensureAscii : Bool

/-- The manifest update and json.dump call of XclocBundle.process (main.py
    lines 353-365): only targetLocale is assigned; the dump is invoked with
    indent 2 and ensure_ascii False. -/
def writeManifest {α : Type} (m : List (Chars × α)) (v : α) : ManifestWrite α :=
  ⟨updateTargetLocale m v, 2, false⟩

/-- One XLIFF file of the bundle: parsing either succeeds, yielding the
    document tree, or fails, leaving only the raw copied text. -/
inductive XItem where
  | ok (d : XliffDoc)
  | bad (raw : Chars)
deriving DecidableEq

structure BundleIn where
  manifest : List (Chars × Chars)
  items : List XItem
deriving DecidableEq

structure BundleOut where
  manifest : List (Chars × Chars)
  items : List XItem
deriving DecidableEq

structure ItemsResult where
  items : List XItem
  cache : Cache
  success : Bool
deriving DecidableEq

/-- The per-document loop of XclocBundle.process (main.py lines 390-394):
    a document whose parse fails makes translate_file return False before
    any write, so its output file keeps the copied input text and the
    overall flag drops to False, while the remaining documents are still
    processed. -/
def translateItems (b : Backend) (source_lang target_lang : Chars) (cache : Cache) : List XItem → ItemsResult
  | [] => ⟨[], cache, true⟩
  | XItem.bad r :: rest =>
    let rr := translateItems b source_lang target_lang cache rest
    ⟨XItem.bad r :: rr.items, rr.cache, false && rr.success⟩
  | XItem.ok d :: rest =>
    let fr := translate_file b source_lang target_lang cache d
    let rr := translateItems b source_lang target_lang fr.cache rest
    ⟨XItem.ok fr.doc :: rr.items, rr.cache, fr.success && rr.success⟩

/-- The structural counterpart of the raw-text force fix on a parsed
    document: the regex rewrites every existing target-language attribute
    but cannot add the attribute to an element lacking it. -/
def forceFixDoc (target_lang : Chars) (d : XliffDoc) : XliffDoc :=
  ⟨d.files.map (fun f => if f.targetLanguage = none then f else ⟨some target_lang, f.original⟩), d.units⟩

/-- The consistency pass of XclocBundle.process (main.py lines 396-405):
    verify_xliff_consistency re-parses each written file; on a parsed
    document it checks every file element, while on an unparseable file the
    parse raises, the check returns False, and
    _force_fix_xliff_target_language rewrites the raw text. -/
def fixStep (target_lang : Chars) : XItem → XItem
  | XItem.ok d => if verifyDoc d target_lang then XItem.ok d else XItem.ok (forceFixDoc target_lang d)
  | XItem.bad r => XItem.bad (forceFix target_lang r)

/-- XclocBundle.process (main.py lines 307-410) on an existing bundle with
    an existing manifest: read developmentRegion, failing when it is empty
    or absent; copy the bundle; assign the copied manifest's targetLocale;
    translate every XLIFF file; run the verification pass with its
    force-fix fallback; and re-check the manifest targetLocale inside
    _verify_bundle_consistency.  none models the early False returns where
    no output bundle is produced. -/
def processBundle (b : Backend) (inp : BundleIn) (target_lang : Chars) : Option (BundleOut × Bool) :=
  let source_lang := (lookupKV inp.manifest developmentRegionKey).getD []
  if source_lang = [] then none
  else
    let manifest1 := updateTargetLocale inp.manifest target_lang
    let tr := translateItems b source_lang target_lang [] inp.items
    let items2 := tr.items.map (fixStep target_lang)
    let manifest2 :=
      if lookupKV manifest1 targetLocaleKey ≠ some target_lang then
        updateTargetLocale manifest1 target_lang
      else manifest1
    some (⟨manifest2, items2⟩, tr.success)

/-- A contiguous occurrence of patt inside s. -/
def Occurs (patt s : Chars) : Prop := ∃ A B, s = A ++ patt ++ B

/-- Decidable substring test, used to state hypotheses. -/
def hasSub (patt : Chars) : Chars → Bool
  | [] => patt.isPrefixOf []
  | c :: r => patt.isPrefixOf (c :: r) || hasSub patt r

/- ### Library of small lemmas about the embedded primitives -/

theorem splitUntil_eq_some {stop : Char} :
    ∀ {l a b : Chars}, splitUntil stop l = some (a, b) → l = a ++ stop :: b ∧ stop ∉ a := by
  intro l
  induction l with
  | nil => intro a b h; simp [splitUntil] at h
  | cons c r ih =>
    intro a b h
    by_cases hc : c = stop
    · subst hc
      unfold splitUntil at h
      rw [if_pos rfl] at h
      have ha : a = [] ∧ b = r := by
        constructor
        · exact congrArg (fun x => (Option.getD x ([], [])).1) h.symm
        · exact congrArg (fun x => (Option.getD x ([], [])).2) h.symm
      obtain ⟨ha1, ha2⟩ := ha
      subst ha1; subst ha2
      exact ⟨rfl, by simp⟩
    · unfold splitUntil at h
      rw [if_neg hc] at h
      rcases hsp : splitUntil stop r with _ | p
      · rw [hsp] at h; simp at h
      · obtain ⟨p1, p2⟩ := p
        rw [hsp] at h
        simp only [Option.map_some', Option.some.injEq, Prod.mk.injEq] at h
        obtain ⟨ha, hb⟩ := h
        subst ha; subst hb
        obtain ⟨hr, hna⟩ := ih hsp
        constructor
        · rw [hr]; rfl
        · intro hmem
          rcases List.mem_cons.mp hmem with h1 | h2
          · exact hc h1.symm
          · exact hna h2

theorem splitUntil_eq_none {stop : Char} :
    ∀ {l : Chars}, splitUntil stop l = none ↔ stop ∉ l := by
  intro l
  induction l with
  | nil => simp [splitUntil]
  | cons c r ih =>
    by_cases hc : c = stop
    · subst hc; simp [splitUntil]
    · unfold splitUntil
      rw [if_neg hc, Option.map_eq_none']
      rw [ih]
      constructor
      · intro h
        intro hmem
        rcases List.mem_cons.mp hmem with h1 | h2
        · exact hc h1.symm
        · exact h h2
      · intro h
        intro hmem
        exact h (List.mem_cons_of_mem c hmem)

theorem replaceAllAux_nil (patt repl : Chars) (f : Nat) : replaceAllAux patt repl f [] = [] := by
  cases f <;> rfl

theorem replaceAllAux_succ (patt repl : Chars) (f : Nat) (c : Char) (rest : Chars) :
    replaceAllAux patt repl (f + 1) (c :: rest) =
      if patt ≠ [] ∧ patt.isPrefixOf (c :: rest) then
        repl ++ replaceAllAux patt repl f ((c :: rest).drop patt.length)
      else c :: replaceAllAux patt repl f rest := rfl

theorem replaceAllAux_fuel (patt repl : Chars) :
    ∀ (f g : Nat) (s : Chars), s.length ≤ f → s.length ≤ g →
      replaceAllAux patt repl f s = replaceAllAux patt repl g s := by
  intro f
  induction f with
  | zero =>
    intro g s hf _
    have hs : s = [] := List.eq_nil_of_length_eq_zero (Nat.le_zero.mp hf)
    subst hs
    rw [replaceAllAux_nil, replaceAllAux_nil]
  | succ f ih =>
    intro g s hf hg
    match s, g with
    | [], g => rw [replaceAllAux_nil, replaceAllAux_nil]
    | c :: rest, 0 => exact absurd hg (by simp)
    | c :: rest, Nat.succ g' =>
      rw [replaceAllAux_succ, replaceAllAux_succ]
      by_cases h : patt ≠ [] ∧ patt.isPrefixOf (c :: rest)
      · rw [if_pos h, if_pos h]
        have hlen : ((c :: rest).drop patt.length).length ≤ rest.length := by
          have hp1 : 1 ≤ patt.length := by
            cases hpe : patt with
            | nil => exact absurd hpe h.1
            | cons x xs => simp
          simp only [List.length_drop, List.length_cons]
          omega
        have h1 : ((c :: rest).drop patt.length).length ≤ f := le_trans hlen (Nat.le_of_succ_le_succ hf)
        have h2 : ((c :: rest).drop patt.length).length ≤ g' := le_trans hlen (Nat.le_of_succ_le_succ hg)
        rw [ih _ _ h1 h2]
      · rw [if_neg h, if_neg h]
        rw [ih _ _ (Nat.le_of_succ_le_succ hf) (Nat.le_of_succ_le_succ hg)]

theorem replaceAll_nil (patt repl : Chars) : replaceAll patt repl [] = [] := rfl

theorem replaceAll_cons_hit {patt : Chars} (repl : Chars) {c : Char} {rest : Chars}
    (h1 : patt ≠ []) (h2 : patt <+: c :: rest) :
    replaceAll patt repl (c :: rest) = repl ++ replaceAll patt repl ((c :: rest).drop patt.length) := by
  unfold replaceAll
  rw [List.length_cons, replaceAllAux_succ,
    if_pos ⟨h1, List.isPrefixOf_iff_prefix.mpr h2⟩]
  congr 1
  apply replaceAllAux_fuel
  · have hp1 : 1 ≤ patt.length := by
      cases hpe : patt with
      | nil => exact absurd hpe h1
      | cons x xs => simp
    simp only [List.length_drop, List.length_cons]
    omega
  · exact le_refl _

theorem replaceAll_cons_miss {patt : Chars} (repl : Chars) {c : Char} {rest : Chars}
    (h : ¬(patt ≠ [] ∧ patt <+: c :: rest)) :
    replaceAll patt repl (c :: rest) = c :: replaceAll patt repl rest := by
  unfold replaceAll
  rw [List.length_cons, replaceAllAux_succ, if_neg (by simpa using h)]

theorem occurs_of_pref {patt s : Chars} (h : patt <+: s) : Occurs patt s := by
  obtain ⟨t, ht⟩ := h
  exact ⟨[], t, by simp [ht.symm]⟩

theorem occurs_cons {patt : Chars} {c : Char} {s : Chars} :
    Occurs patt (c :: s) ↔ patt <+: c :: s ∨ Occurs patt s := by
  constructor
  · rintro ⟨A, B, h⟩
    cases A with
    | nil => exact Or.inl ⟨B, by simpa using h.symm⟩
    | cons a A' =>
      right
      refine ⟨A', B, ?_⟩
      simpa using congrArg List.tail h
  · rintro (h | ⟨A, B, h⟩)
    · exact occurs_of_pref h
    · exact ⟨c :: A, B, by simp [h]⟩

theorem occurs_append_right {patt A B : Chars} (h : Occurs patt B) : Occurs patt (A ++ B) := by
  obtain ⟨X, Y, h⟩ := h
  exact ⟨A ++ X, Y, by simp [h]⟩

theorem occurs_append_left {patt A B : Chars} (h : Occurs patt A) : Occurs patt (A ++ B) := by
  obtain ⟨X, Y, h⟩ := h
  exact ⟨X, Y ++ B, by simp [h]⟩

theorem occurs_of_occurs_append {patt d s : Chars} (h : Occurs (patt ++ d) s) : Occurs patt s := by
  obtain ⟨A, B, hh⟩ := h
  exact ⟨A, d ++ B, by simp [hh]⟩

theorem hasSub_iff_occurs {patt : Chars} : ∀ {s : Chars}, hasSub patt s = true ↔ Occurs patt s := by
  intro s
  induction s with
  | nil =>
    simp only [hasSub, List.isPrefixOf_iff_prefix, List.prefix_nil]
    constructor
    · rintro rfl; exact ⟨[], [], rfl⟩
    · rintro ⟨A, B, h⟩
      rcases List.append_eq_nil.mp h.symm with ⟨h1, h2⟩
      exact (List.append_eq_nil.mp h1).2
  | cons c r ih =>
    simp only [hasSub, Bool.or_eq_true, List.isPrefixOf_iff_prefix, ih, occurs_cons]

theorem not_occurs_of_hasSub_eq_false {patt s : Chars} (h : hasSub patt s = false) : ¬ Occurs patt s := by
  intro hx
  rw [← hasSub_iff_occurs] at hx
  rw [h] at hx
  exact Bool.false_ne_true hx

theorem replaceAll_of_not_occurs {patt repl : Chars} :
    ∀ {s : Chars}, ¬ Occurs patt s → replaceAll patt repl s = s := by
  intro s
  induction s with
  | nil => intro _; rfl
  | cons c rest ih =>
    intro h
    have hmiss : ¬(patt ≠ [] ∧ patt <+: c :: rest) := by
      rintro ⟨_, hp⟩
      exact h (occurs_of_pref hp)
    rw [replaceAll_cons_miss _ hmiss]
    rw [ih (fun hx => h (occurs_cons.mpr (Or.inr hx)))]

theorem not_prefix_mid {T R S : Chars} {p : Char} {T0 : Chars}
    (hT : T = p :: T0) (hP : p ∉ T0) (hR : ¬ Occurs T R) (hRne : R ≠ []) :
    ¬ T <+: R ++ T ++ S := by
  intro hpre
  rcases le_or_lt T.length R.length with hle | hlt
  · have hpr : T <+: R := by
      have h2 : R <+: R ++ T ++ S := by
        rw [List.append_assoc]; exact List.prefix_append R (T ++ S)
      exact List.prefix_of_prefix_length_le hpre h2 hle
    obtain ⟨t, ht⟩ := hpr
    exact hR ⟨[], t, by simp [ht.symm]⟩
  · have hRlen : 1 ≤ R.length := by
      cases hre : R with
      | nil => exact absurd hre hRne
      | cons x xs => simp
    have htake : T = (R ++ T ++ S).take T.length := List.prefix_iff_eq_take.mp hpre
    have h1 : T[R.length]? = (R ++ T ++ S)[R.length]? := by
      conv_lhs => rw [htake]
      exact List.getElem?_take_of_lt hlt
    have h2 : (R ++ T ++ S)[R.length]? = some p := by
      rw [List.append_assoc, List.getElem?_append_right (le_refl R.length), Nat.sub_self]
      simp [hT]
    obtain ⟨k, hk⟩ : ∃ k, R.length = k + 1 := ⟨R.length - 1, by omega⟩
    have h3 : T0[k]? = some p := by
      have hcs : T[k + 1]? = T0[k]? := by rw [hT]; exact List.getElem?_cons_succ
      rw [← hcs, ← hk, h1, h2]
    exact hP (List.getElem?_mem h3)

theorem replaceAll_mid {T : Chars} (repl : Chars) {p : Char} {T0 : Chars}
    (hT : T = p :: T0) (hP : p ∉ T0) :
    ∀ {R : Chars} (S : Chars), ¬ Occurs T R →
      replaceAll T repl (R ++ T ++ S) = R ++ repl ++ replaceAll T repl S := by
  intro R
  induction R with
  | nil =>
    intro S _
    simp only [List.nil_append]
    have hne : T ≠ [] := by simp [hT]
    have : T ++ S = p :: (T0 ++ S) := by simp [hT]
    rw [this]
    rw [replaceAll_cons_hit repl hne (by rw [← this]; exact List.prefix_append T S)]
    rw [← this, List.drop_left]
  | cons c R' ih =>
    intro S hR
    have hmiss : ¬(T ≠ [] ∧ T <+: (c :: R') ++ T ++ S) := by
      rintro ⟨_, hp⟩
      exact not_prefix_mid hT hP hR (by simp) hp
    have hstep : replaceAll T repl ((c :: R') ++ T ++ S) = c :: replaceAll T repl (R' ++ T ++ S) := by
      have : (c :: R') ++ T ++ S = c :: (R' ++ T ++ S) := by simp
      rw [this]
      exact replaceAll_cons_miss repl (by rw [← this]; exact hmiss)
    rw [hstep]
    rw [ih S (fun hx => hR (occurs_cons.mpr (Or.inr hx)))]
    simp

/- ### The scan reassembles the original text -/

theorem renderOrig_map_lit : ∀ (s : Chars), renderOrig (s.map Chunk.lit) = s := by
  intro s
  induction s with
  | nil => rfl
  | cons c r ih => simpa [renderOrig] using ih

theorem specsOf_map_lit : ∀ (s : Chars), specsOf (s.map Chunk.lit) = [] := by
  intro s
  induction s with
  | nil => rfl
  | cons c r ih => simpa [specsOf] using ih

theorem scanAux_zero_eq (s : Chars) : scanAux 0 s = s.map Chunk.lit := by
  cases s <;> rfl

theorem scanAux_succ_pct_spec (f : Nat) (d : Char) (rest2 : Chars) (hd : specChar d = true) :
    scanAux (f + 1) ('%' :: d :: rest2) = Chunk.spec ['%', d] :: scanAux f rest2 := by
  simp [scanAux, hd]

theorem scanAux_succ_pct_nospec (f : Nat) (d : Char) (rest2 : Chars) (hd : ¬ specChar d = true) :
    scanAux (f + 1) ('%' :: d :: rest2) = Chunk.lit '%' :: scanAux f (d :: rest2) := by
  simp [scanAux, hd]

theorem scanAux_succ_pct_nil (f : Nat) : scanAux (f + 1) ['%'] = [Chunk.lit '%'] := rfl

theorem scanAux_succ_brace_some (f : Nat) (rest ins aft : Chars)
    (hsp : splitUntil '\x7d' rest = some (ins, aft)) :
    scanAux (f + 1) ('\x7b' :: rest) = Chunk.spec ('\x7b' :: ins ++ ['\x7d']) :: scanAux f aft := by
  simp [scanAux, hsp]

theorem scanAux_succ_brace_none (f : Nat) (rest : Chars)
    (hsp : splitUntil '\x7d' rest = none) :
    scanAux (f + 1) ('\x7b' :: rest) = Chunk.lit '\x7b' :: scanAux f rest := by
  simp [scanAux, hsp]

theorem scanAux_succ_other (f : Nat) (c : Char) (rest : Chars) (hc : c ≠ '%') (hb : c ≠ '\x7b') :
    scanAux (f + 1) (c :: rest) = Chunk.lit c :: scanAux f rest := by
  simp [scanAux, hc, hb]

theorem renderOrig_scanAux : ∀ (f : Nat) (s : Chars), renderOrig (scanAux f s) = s := by
  intro f
  induction f with
  | zero =>
    intro s
    rw [scanAux_zero_eq]
    exact renderOrig_map_lit s
  | succ f ih =>
    intro s
    cases s with
    | nil => rfl
    | cons c rest =>
      by_cases hc : c = '%'
      · subst hc
        cases rest with
        | nil => rfl
        | cons d rest2 =>
          by_cases hd : specChar d
          · rw [scanAux_succ_pct_spec f d rest2 hd]
            simp [renderOrig, ih]
          · rw [scanAux_succ_pct_nospec f d rest2 hd]
            simp [renderOrig, ih]
      · by_cases hb : c = '\x7b'
        · subst hb
          rcases hsp : splitUntil '\x7d' rest with _ | p
          · rw [scanAux_succ_brace_none f rest hsp]
            simp [renderOrig, ih]
          · obtain ⟨ins, aft⟩ := p
            obtain ⟨hr, _⟩ := splitUntil_eq_some hsp
            rw [scanAux_succ_brace_some f rest ins aft hsp]
            simp [renderOrig, ih, hr]
        · rw [scanAux_succ_other f c rest hc hb]
          simp [renderOrig, ih]

theorem renderOrig_scanText (t : Chars) : renderOrig (scanText t) = t :=
  renderOrig_scanAux t.length t

/- ### Shape of the matches -/

theorem specsOf_scanAux_shape :
    ∀ (f : Nat) (s : Chars) (x : Chars), x ∈ specsOf (scanAux f s) →
      (∃ d, specChar d = true ∧ x = ['%', d]) ∨
      (∃ ins, x = '\x7b' :: ins ++ ['\x7d'] ∧ '\x7d' ∉ ins) := by
  intro f
  induction f with
  | zero =>
    intro s x hx
    rw [scanAux_zero_eq, specsOf_map_lit] at hx
    simp at hx
  | succ f ih =>
    intro s x hx
    cases s with
    | nil => simp [scanAux, specsOf] at hx
    | cons c rest =>
      by_cases hc : c = '%'
      · subst hc
        cases rest with
        | nil =>
          rw [scanAux_succ_pct_nil] at hx
          simp [specsOf] at hx
        | cons d rest2 =>
          by_cases hd : specChar d
          · rw [scanAux_succ_pct_spec f d rest2 hd] at hx
            simp only [specsOf, List.mem_cons] at hx
            rcases hx with h1 | h2
            · exact Or.inl ⟨d, hd, h1⟩
            · exact ih rest2 x h2
          · rw [scanAux_succ_pct_nospec f d rest2 hd] at hx
            simp only [specsOf] at hx
            exact ih (d :: rest2) x hx
      · by_cases hb : c = '\x7b'
        · subst hb
          rcases hsp : splitUntil '\x7d' rest with _ | p
          · rw [scanAux_succ_brace_none f rest hsp] at hx
            simp only [specsOf] at hx
            exact ih rest x hx
          · obtain ⟨ins, aft⟩ := p
            obtain ⟨_, hnin⟩ := splitUntil_eq_some hsp
            rw [scanAux_succ_brace_some f rest ins aft hsp] at hx
            simp only [specsOf, List.mem_cons] at hx
            rcases hx with h1 | h2
            · exact Or.inr ⟨ins, h1, hnin⟩
            · exact ih aft x h2
        · rw [scanAux_succ_other f c rest hc hb] at hx
          simp only [specsOf] at hx
          exact ih rest x hx

theorem mapFrom_snd_mem : ∀ (cs : List Chunk) (i : Nat) (x : Chars × Chars),
    x ∈ mapFrom i cs → x.2 ∈ specsOf cs := by
  intro cs
  induction cs with
  | nil => intro i x hx; simp [mapFrom] at hx
  | cons ch rest ih =>
    intro i x hx
    cases ch with
    | lit c => simpa [mapFrom, specsOf] using ih i x hx
    | spec s =>
      simp only [mapFrom, List.mem_cons] at hx
      rcases hx with h1 | h2
      · subst h1; simp [specsOf]
      · simp only [specsOf, List.mem_cons]
        exact Or.inr (ih (i + 1) x h2)

/-- C8: extract_placeholders masks only a percent sign followed by exactly
    one character of the class @%diouxXfeEgGcs, or a brace-delimited span;
    a multi-character printf specifier such as percent-l-d, or a positional
    specifier such as percent-1-dollar-d, is never matched, and such inputs
    come back unchanged with an empty placeholder map. -/
theorem extract_placeholders_single_char_or_brace_only :
    (∀ (t : Chars) (x : Chars × Chars), x ∈ (extract_placeholders t).2 →
      (∃ d, specChar d = true ∧ x.2 = ['%', d]) ∨
      (∃ ins, x.2 = '\x7b' :: ins ++ ['\x7d'] ∧ '\x7d' ∉ ins)) ∧
    extract_placeholders ("Count: %ld items".data) = ("Count: %ld items".data, []) ∧
    extract_placeholders ("%1$d".data) = ("%1$d".data, []) := by
  refine ⟨?_, by decide, by decide⟩
  intro t x hx
  exact specsOf_scanAux_shape t.length t x.2 (mapFrom_snd_mem (scanText t) 0 x hx)

/-- Witness for C8: the match of the text percent-d is the two-character
    specifier, recognized by the first disjunct. -/
theorem extract_placeholders_single_char_or_brace_only_witness :
    (∃ d, specChar d = true ∧ (token 0, ['%', 'd']).2 = ['%', d]) ∨
    (∃ ins, (token 0, ['%', 'd']).2 = '\x7b' :: ins ++ ['\x7d'] ∧ '\x7d' ∉ ins) :=
  extract_placeholders_single_char_or_brace_only.1 ("%d".data) (token 0, ['%', 'd']) (by decide)

/- ### Manifest update lemmas -/

theorem lookupKV_cons {α : Type} (a : Chars) (w : α) (r : List (Chars × α)) (k : Chars) :
    lookupKV ((a, w) :: r) k = if a = k then some w else lookupKV r k := rfl

theorem lookupKV_of_contains_eq_false {α : Type} :
    ∀ (m : List (Chars × α)) (k : Chars), (m.map Prod.fst).contains k = false → lookupKV m k = none := by
  intro m
  induction m with
  | nil => intro k _; rfl
  | cons kv rest ih =>
    obtain ⟨a, w⟩ := kv
    intro k h
    simp only [List.map_cons, List.contains_cons, Bool.or_eq_false_iff, beq_eq_false_iff_ne] at h
    rw [lookupKV_cons, if_neg (fun he => h.1 he.symm)]
    exact ih k h.2

theorem lookupKV_append_single {α : Type} :
    ∀ (m : List (Chars × α)) (k : Chars) (v : α), lookupKV m k = none →
      lookupKV (m ++ [(k, v)]) k = some v := by
  intro m
  induction m with
  | nil => intro k v _; rw [List.nil_append, lookupKV_cons, if_pos rfl]
  | cons kv rest ih =>
    obtain ⟨a, w⟩ := kv
    intro k v h
    rw [lookupKV_cons] at h
    rw [List.cons_append, lookupKV_cons]
    by_cases ha : a = k
    · rw [if_pos ha] at h; exact absurd h (by simp)
    · rw [if_neg ha] at h
      rw [if_neg ha]
      exact ih k v h

theorem lookupKV_append_other {α : Type} :
    ∀ (m : List (Chars × α)) (k k' : Chars) (v : α), k' ≠ k →
      lookupKV (m ++ [(k, v)]) k' = lookupKV m k' := by
  intro m
  induction m with
  | nil =>
    intro k k' v hne
    rw [List.nil_append, lookupKV_cons, if_neg (fun he => hne he.symm)]
  | cons kv rest ih =>
    obtain ⟨a, w⟩ := kv
    intro k k' v hne
    rw [List.cons_append, lookupKV_cons, lookupKV_cons]
    by_cases ha : a = k'
    · rw [if_pos ha, if_pos ha]
    · rw [if_neg ha, if_neg ha]
      exact ih k k' v hne

theorem lookupKV_map_replace_self {α : Type} :
    ∀ (m : List (Chars × α)) (v : α), (m.map Prod.fst).contains targetLocaleKey = true →
      lookupKV (m.map (fun kv => if kv.1 = targetLocaleKey then (kv.1, v) else kv)) targetLocaleKey = some v := by
  intro m
  induction m with
  | nil => intro v h; simp at h
  | cons kv rest ih =>
    obtain ⟨a, w⟩ := kv
    intro v h
    by_cases ha : a = targetLocaleKey
    · subst ha
      rw [List.map_cons]
      have hred : (if (targetLocaleKey, w).1 = targetLocaleKey then ((targetLocaleKey, w).1, v) else (targetLocaleKey, w)) = (targetLocaleKey, v) := by simp
      rw [hred, lookupKV_cons, if_pos rfl]
    · simp only [List.map_cons, List.contains_cons, Bool.or_eq_true, beq_iff_eq] at h
      rcases h with h1 | h2
      · exact absurd h1.symm ha
      · rw [List.map_cons]
        have hred : (if (a, w).1 = targetLocaleKey then ((a, w).1, v) else (a, w)) = (a, w) := by simp [ha]
        rw [hred, lookupKV_cons, if_neg ha]
        exact ih v h2

theorem lookupKV_map_replace_other {α : Type} :
    ∀ (m : List (Chars × α)) (v : α) (k : Chars), k ≠ targetLocaleKey →
      lookupKV (m.map (fun kv => if kv.1 = targetLocaleKey then (kv.1, v) else kv)) k = lookupKV m k := by
  intro m
  induction m with
  | nil => intro v k _; rfl
  | cons kv rest ih =>
    obtain ⟨a, w⟩ := kv
    intro v k hk
    by_cases ha : a = targetLocaleKey
    · subst ha
      rw [List.map_cons]
      have hred : (if (targetLocaleKey, w).1 = targetLocaleKey then ((targetLocaleKey, w).1, v) else (targetLocaleKey, w)) = (targetLocaleKey, v) := by simp
      rw [hred, lookupKV_cons, lookupKV_cons,
        if_neg (fun he => hk he.symm), if_neg (fun he => hk he.symm)]
      exact ih v k hk
    · rw [List.map_cons]
      have hred : (if (a, w).1 = targetLocaleKey then ((a, w).1, v) else (a, w)) = (a, w) := by simp [ha]
      rw [hred, lookupKV_cons, lookupKV_cons]
      by_cases hak : a = k
      · rw [if_pos hak, if_pos hak]
      · rw [if_neg hak, if_neg hak]
        exact ih v k hk

theorem map_fst_map_replace {α : Type} (m : List (Chars × α)) (v : α) :
    (m.map (fun kv => if kv.1 = targetLocaleKey then (kv.1, v) else kv)).map Prod.fst = m.map Prod.fst := by
  induction m with
  | nil => rfl
  | cons kv rest ih =>
    obtain ⟨a, w⟩ := kv
    rw [List.map_cons, List.map_cons, List.map_cons]
    by_cases ha : a = targetLocaleKey
    · have hred : (if (a, w).1 = targetLocaleKey then ((a, w).1, v) else (a, w)) = (a, v) := by simp [ha]
      rw [hred, ih]
    · have hred : (if (a, w).1 = targetLocaleKey then ((a, w).1, v) else (a, w)) = (a, w) := by simp [ha]
      rw [hred, ih]

/-- C7: updating the copied manifest changes only the targetLocale field:
    it ends up equal to the configured target language, every other key
    keeps its original value, the key ordering is preserved (targetLocale
    appended at the end only when it was absent), and the dump is performed
    with 2-space indentation and unescaped non-ASCII. -/
theorem manifest_update_frame_effect {α : Type} (m : List (Chars × α)) (v : α) :
    (writeManifest m v).contents = updateTargetLocale m v ∧
    lookupKV (updateTargetLocale m v) targetLocaleKey = some v ∧
    (∀ k, k ≠ targetLocaleKey → lookupKV (updateTargetLocale m v) k = lookupKV m k) ∧
    ((updateTargetLocale m v).map Prod.fst =
      if (m.map Prod.fst).contains targetLocaleKey then m.map Prod.fst
      else m.map Prod.fst ++ [targetLocaleKey]) ∧
    (writeManifest m v).indent = 2 ∧ (writeManifest m v).ensureAscii = false := by
  refine ⟨rfl, ?_, ?_, ?_, rfl, rfl⟩
  · unfold updateTargetLocale
    by_cases hc : (m.map Prod.fst).contains targetLocaleKey = true
    · rw [if_pos hc]
      exact lookupKV_map_replace_self m v hc
    · rw [if_neg hc]
      exact lookupKV_append_single m targetLocaleKey v
        (lookupKV_of_contains_eq_false m targetLocaleKey (Bool.not_eq_true _ ▸ hc))
  · intro k hk
    unfold updateTargetLocale
    by_cases hc : (m.map Prod.fst).contains targetLocaleKey = true
    · rw [if_pos hc]
      exact lookupKV_map_replace_other m v k hk
    · rw [if_neg hc]
      exact lookupKV_append_other m targetLocaleKey k v hk
  · unfold updateTargetLocale
    by_cases hc : (m.map Prod.fst).contains targetLocaleKey = true
    · rw [if_pos hc, if_pos hc]
      exact map_fst_map_replace m v
    · rw [if_neg hc, if_neg hc]
      simp

/-- Witness for C7 at a concrete two-field manifest. -/
theorem manifest_update_frame_effect_witness :
    lookupKV (updateTargetLocale [(developmentRegionKey, "en".data), (targetLocaleKey, "en".data)] ("de".data))
      developmentRegionKey = some ("en".data) :=
  (manifest_update_frame_effect [(developmentRegionKey, "en".data), (targetLocaleKey, "en".data)]
    ("de".data)).2.2.1 developmentRegionKey (by decide)

/- ### Unit-loop lemmas -/

theorem processUnits_nil (b : Backend) (sl tl : Chars) (cache : Cache) :
    processUnits b sl tl cache [] = ⟨[], cache, 0, 0⟩ := rfl

theorem processUnits_cons (b : Backend) (sl tl : Chars) (cache : Cache) (u : TransUnit) (us : List TransUnit) :
    processUnits b sl tl cache (u :: us) =
      ⟨(processUnit b sl tl cache u).unit ::
          (processUnits b sl tl (processUnit b sl tl cache u).cache us).units,
        (processUnits b sl tl (processUnit b sl tl cache u).cache us).cache,
        (processUnit b sl tl cache u).translatedN +
          (processUnits b sl tl (processUnit b sl tl cache u).cache us).translatedN,
        (processUnit b sl tl cache u).backendCalls +
          (processUnits b sl tl (processUnit b sl tl cache u).cache us).backendCalls⟩ := rfl

theorem processUnit_sourceless (b : Backend) (sl tl : Chars) (cache : Cache)
    {u : TransUnit} (hu : u.source = none) :
    processUnit b sl tl cache u = ⟨u, cache, 0, 0⟩ := by
  obtain ⟨s, t⟩ := u
  cases s with
  | none => rfl
  | some _ => simp at hu

/-- C9: a trans-unit without a source element is left entirely unchanged
    (no target created, no state set, no gateway invocation, not counted),
    while the remaining units are processed exactly as they would be
    without it, and the document write still reports success. -/
theorem processUnits_skips_sourceless (b : Backend) (sl tl : Chars) (cache : Cache)
    (us1 us2 : List TransUnit) (u : TransUnit) (hu : u.source = none) :
    (processUnits b sl tl cache (us1 ++ u :: us2) =
      (let r1 := processUnits b sl tl cache us1
       let r2 := processUnits b sl tl r1.cache us2
       ⟨r1.units ++ u :: r2.units, r2.cache, r1.translatedN + r2.translatedN,
        r1.backendCalls + r2.backendCalls⟩)) ∧
    (translate_file b sl tl cache ⟨[], us1 ++ u :: us2⟩).success = true := by
  refine ⟨?_, rfl⟩
  induction us1 generalizing cache with
  | nil =>
    rw [List.nil_append, processUnits_cons, processUnit_sourceless b sl tl cache hu]
    simp [processUnits_nil]
  | cons v us1' ih =>
    rw [List.cons_append, processUnits_cons, ih]
    conv_rhs => rw [processUnits_cons]
    simp [List.append_assoc, Nat.add_assoc]

/-- Witness for C9 at a concrete one-unit document. -/
theorem processUnits_skips_sourceless_witness :
    (processUnits (fun _ _ _ => none) ("en".data) ("de".data) []
        ([] ++ (⟨none, none⟩ : TransUnit) :: []) =
      (let r1 := processUnits (fun _ _ _ => none) ("en".data) ("de".data) [] []
       let r2 := processUnits (fun _ _ _ => none) ("en".data) ("de".data) r1.cache []
       ⟨r1.units ++ (⟨none, none⟩ : TransUnit) :: r2.units, r2.cache,
        r1.translatedN + r2.translatedN, r1.backendCalls + r2.backendCalls⟩)) ∧
    (translate_file (fun _ _ _ => none) ("en".data) ("de".data) []
        ⟨[], [] ++ (⟨none, none⟩ : TransUnit) :: []⟩).success = true :=
  processUnits_skips_sourceless (fun _ _ _ => none) ("en".data) ("de".data) [] [] []
    ⟨none, none⟩ rfl

theorem processUnit_eq_cases (b : Backend) (sl tl : Chars) (cache : Cache)
    (os : Option Chars) (tg : Option TargetElem) :
    processUnit b sl tl cache ⟨some os, tg⟩ =
      (let tgt := tg.getD ⟨none, none⟩
       if tgt.text = none ∨ pyStrip (tgt.text.getD []) = [] ∨ tgt.state.getD [] ≠ translatedLit then
         let r := Translator.translate b cache (os.getD []) sl tl
         ⟨⟨some os, some ⟨some r.text, some translatedLit⟩⟩, r.cache, 1, r.backendCalls⟩
       else ⟨⟨some os, some tgt⟩, cache, 0, 0⟩) := rfl

theorem retranslate_condition_iff (os : Option Chars) (tg : Option TargetElem) :
    ((tg.getD ⟨none, none⟩).text = none ∨ pyStrip ((tg.getD ⟨none, none⟩).text.getD []) = [] ∨
      (tg.getD ⟨none, none⟩).state.getD [] ≠ translatedLit) ↔
    unitComplete ⟨some os, tg⟩ = false := by
  cases tg with
  | none => simp [unitComplete, pyStrip]
  | some te =>
    obtain ⟨tx, st⟩ := te
    cases tx with
    | none => simp [unitComplete]
    | some s =>
      simp only [Option.getD_some, unitComplete]
      by_cases h1 : pyStrip s = []
      · simp [h1]
      · by_cases h2 : st.getD [] = translatedLit
        · simp [h1, h2]
        · simp [h1, h2]

theorem processUnit_complete_skip (b : Backend) (sl tl : Chars) (cache : Cache)
    {u : TransUnit} (hc : unitComplete u = true) :
    processUnit b sl tl cache u = ⟨u, cache, 0, 0⟩ := by
  obtain ⟨s, t⟩ := u
  cases s with
  | none => rfl
  | some os =>
    rw [processUnit_eq_cases]
    have hcond := retranslate_condition_iff os t
    rw [if_neg (fun hx => by rw [hcond.mp hx] at hc; exact Bool.false_ne_true hc)]
    cases t with
    | none => simp [unitComplete] at hc
    | some te => rfl

theorem processUnits_preserves_complete (b : Backend) (sl tl : Chars) :
    ∀ (us : List TransUnit) (cache : Cache) (i : Nat) (u : TransUnit),
      us[i]? = some u → unitComplete u = true →
      (processUnits b sl tl cache us).units[i]? = some u := by
  intro us
  induction us with
  | nil => intro cache i u h _; simp at h
  | cons v us' ih =>
    intro cache i u h hc
    rw [processUnits_cons]
    cases i with
    | zero =>
      simp only [List.getElem?_cons_zero, Option.some.injEq] at h
      subst h
      rw [processUnit_complete_skip b sl tl cache hc]
      simp
    | succ j =>
      simp only [List.getElem?_cons_succ] at h
      show ((processUnit b sl tl cache v).unit ::
        (processUnits b sl tl (processUnit b sl tl cache v).cache us').units)[j + 1]? = some u
      rw [List.getElem?_cons_succ]
      exact ih _ j u h hc

/-- C3 (amended): for a trans-unit that has a source element, the document
    translator invokes the gateway Translator.translate exactly when the
    unit is not complete; a complete unit is returned byte-identical with
    no gateway invocation, positionally across a whole run, so a second run
    never retranslates a unit completed by the first. -/
theorem gateway_called_iff_incomplete :
    (∀ (b : Backend) (sl tl : Chars) (cache : Cache) (u : TransUnit) (os : Option Chars),
      u.source = some os →
      ((processUnit b sl tl cache u).translatedN = 1 ↔ unitComplete u = false)) ∧
    (∀ (b : Backend) (sl tl : Chars) (cache : Cache) (u : TransUnit),
      unitComplete u = true → processUnit b sl tl cache u = ⟨u, cache, 0, 0⟩) ∧
    (∀ (b : Backend) (sl tl : Chars) (cache : Cache) (us : List TransUnit) (i : Nat) (u : TransUnit),
      us[i]? = some u → unitComplete u = true →
      (processUnits b sl tl cache us).units[i]? = some u) := by
  refine ⟨?_, fun b sl tl cache u => processUnit_complete_skip b sl tl cache,
    fun b sl tl cache us i u h hc => processUnits_preserves_complete b sl tl us cache i u h hc⟩
  intro b sl tl cache u os hs
  obtain ⟨s, t⟩ := u
  simp only at hs
  subst hs
  rw [processUnit_eq_cases]
  have hcond := retranslate_condition_iff os t
  by_cases hx : (t.getD ⟨none, none⟩).text = none ∨ pyStrip ((t.getD ⟨none, none⟩).text.getD []) = [] ∨
      (t.getD ⟨none, none⟩).state.getD [] ≠ translatedLit
  · simp only [if_pos hx]
    simpa using hcond.mp hx
  · simp only [if_neg hx]
    constructor
    · intro h1; exact absurd h1 (by simp)
    · intro hfalse
      exact absurd hfalse (fun hf => hx (hcond.mpr hf))

/-- Witness for C3 at a concrete incomplete unit carrying a source. -/
theorem gateway_called_iff_incomplete_witness :
    (processUnit (fun _ _ _ => none) ("en".data) ("de".data) []
      ⟨some (some ("Hi".data)), none⟩).translatedN = 1 ↔
    unitComplete ⟨some (some ("Hi".data)), none⟩ = false :=
  gateway_called_iff_incomplete.1 (fun _ _ _ => none) ("en".data) ("de".data) []
    ⟨some (some ("Hi".data)), none⟩ (some ("Hi".data)) rfl

/-- C3 counterexample: a unit with no source element is not complete, yet
    processing it issues no gateway call, refuting the unrestricted
    biconditional of the claim. -/
theorem gateway_called_iff_incomplete_counterexample :
    unitComplete ⟨none, none⟩ = false ∧
    (processUnit (fun _ _ _ => none) ("en".data) ("de".data) [] ⟨none, none⟩).translatedN = 0 :=
  ⟨rfl, rfl⟩

/- ### Gateway path lemmas -/

theorem translate_eq_cases (b : Backend) (cache : Cache) (text sl tl : Chars) :
    Translator.translate b cache text sl tl =
      if isBlank text then ⟨text, cache, 0⟩
      else
        match lookupKV cache (cacheKey sl tl text) with
        | some v => ⟨v, cache, 0⟩
        | none =>
          if (splitWs (extract_placeholders text).1).all
              (fun w => ((extract_placeholders text).2.map Prod.fst).contains w) then ⟨text, cache, 0⟩
          else
            match b (mapLanguageCode sl) (mapLanguageCode tl) (extract_placeholders text).1 with
            | some tr =>
              ⟨restore_placeholders tr (extract_placeholders text).2,
                (cacheKey sl tl text, restore_placeholders tr (extract_placeholders text).2) :: cache, 1⟩
            | none => ⟨text, cache, 1⟩ := rfl

theorem translate_path_blank (b : Backend) (cache : Cache) (text sl tl : Chars)
    (hb : isBlank text = true) :
    Translator.translate b cache text sl tl = ⟨text, cache, 0⟩ := by
  rw [translate_eq_cases, if_pos hb]

theorem translate_path_hit (b : Backend) (cache : Cache) (text sl tl v : Chars)
    (hb : isBlank text = false) (hhit : lookupKV cache (cacheKey sl tl text) = some v) :
    Translator.translate b cache text sl tl = ⟨v, cache, 0⟩ := by
  rw [translate_eq_cases]
  simp only [hb, Bool.false_eq_true, if_false, hhit]

theorem translate_path_placeholder (b : Backend) (cache : Cache) (text sl tl : Chars)
    (hb : isBlank text = false) (hmiss : lookupKV cache (cacheKey sl tl text) = none)
    (hall : (splitWs (extract_placeholders text).1).all
      (fun w => ((extract_placeholders text).2.map Prod.fst).contains w) = true) :
    Translator.translate b cache text sl tl = ⟨text, cache, 0⟩ := by
  rw [translate_eq_cases]
  simp only [hb, Bool.false_eq_true, if_false, hmiss, hall, if_true]

theorem translate_path_success (b : Backend) (cache : Cache) (text sl tl tr : Chars)
    (hb : isBlank text = false) (hmiss : lookupKV cache (cacheKey sl tl text) = none)
    (hall : (splitWs (extract_placeholders text).1).all
      (fun w => ((extract_placeholders text).2.map Prod.fst).contains w) = false)
    (hcall : b (mapLanguageCode sl) (mapLanguageCode tl) (extract_placeholders text).1 = some tr) :
    Translator.translate b cache text sl tl =
      ⟨restore_placeholders tr (extract_placeholders text).2,
        (cacheKey sl tl text, restore_placeholders tr (extract_placeholders text).2) :: cache, 1⟩ := by
  rw [translate_eq_cases]
  simp only [hb, Bool.false_eq_true, if_false, hmiss, hall, hcall]

theorem translate_path_fail (b : Backend) (cache : Cache) (text sl tl : Chars)
    (hb : isBlank text = false) (hmiss : lookupKV cache (cacheKey sl tl text) = none)
    (hall : (splitWs (extract_placeholders text).1).all
      (fun w => ((extract_placeholders text).2.map Prod.fst).contains w) = false)
    (hcall : b (mapLanguageCode sl) (mapLanguageCode tl) (extract_placeholders text).1 = none) :
    Translator.translate b cache text sl tl = ⟨text, cache, 1⟩ := by
  rw [translate_eq_cases]
  simp only [hb, Bool.false_eq_true, if_false, hmiss, hall, hcall]

/-- C5: when the backend call raises, Translator.translate returns the
    original text with nothing cached (pass-through; the model function is
    total, so no failure escapes to the caller); an incomplete unit whose
    translation goes through such a failing call gets its source text as
    target text with state set to translated, and the document-level result
    is still reported as success. -/
theorem backend_failure_pass_through :
    (∀ (b : Backend) (cache : Cache) (text sl tl : Chars),
      lookupKV cache (cacheKey sl tl text) = none →
      b (mapLanguageCode sl) (mapLanguageCode tl) (extract_placeholders text).1 = none →
      (Translator.translate b cache text sl tl).text = text ∧
      (Translator.translate b cache text sl tl).cache = cache) ∧
    (∀ (b : Backend) (cache : Cache) (sl tl : Chars) (os : Option Chars) (tg : Option TargetElem),
      unitComplete ⟨some os, tg⟩ = false →
      lookupKV cache (cacheKey sl tl (os.getD [])) = none →
      b (mapLanguageCode sl) (mapLanguageCode tl) (extract_placeholders (os.getD [])).1 = none →
      (processUnit b sl tl cache ⟨some os, tg⟩).unit =
        ⟨some os, some ⟨some (os.getD []), some translatedLit⟩⟩) ∧
    (∀ (b : Backend) (sl tl : Chars) (cache : Cache) (doc : XliffDoc),
      (translate_file b sl tl cache doc).success = true) := by
  have hret : ∀ (b : Backend) (cache : Cache) (text sl tl : Chars),
      lookupKV cache (cacheKey sl tl text) = none →
      b (mapLanguageCode sl) (mapLanguageCode tl) (extract_placeholders text).1 = none →
      (Translator.translate b cache text sl tl).text = text ∧
      (Translator.translate b cache text sl tl).cache = cache := by
    intro b cache text sl tl hmiss hfail
    by_cases hb : isBlank text = true
    · rw [translate_path_blank b cache text sl tl hb]
      exact ⟨rfl, rfl⟩
    · rw [Bool.not_eq_true] at hb
      by_cases hall : (splitWs (extract_placeholders text).1).all
          (fun w => ((extract_placeholders text).2.map Prod.fst).contains w) = true
      · rw [translate_path_placeholder b cache text sl tl hb hmiss hall]
        exact ⟨rfl, rfl⟩
      · rw [Bool.not_eq_true] at hall
        rw [translate_path_fail b cache text sl tl hb hmiss hall hfail]
        exact ⟨rfl, rfl⟩
  refine ⟨hret, ?_, fun _ _ _ _ _ => rfl⟩
  intro b cache sl tl os tg hinc hmiss hfail
  rw [processUnit_eq_cases]
  rw [if_pos ((retranslate_condition_iff os tg).mpr hinc)]
  have := (hret b cache (os.getD []) sl tl hmiss hfail).1
  simp only [this]

/-- Witness for C5: a failing backend leaves the text and the cache alone. -/
theorem backend_failure_pass_through_witness :
    (Translator.translate (fun _ _ _ => none) [] ("Hello".data) ("en".data) ("de".data)).text =
      "Hello".data ∧
    (Translator.translate (fun _ _ _ => none) [] ("Hello".data) ("en".data) ("de".data)).cache = [] :=
  backend_failure_pass_through.1 (fun _ _ _ => none) [] ("Hello".data) ("en".data) ("de".data)
    (by decide) rfl

/-- C6 (amended): the cache is keyed by the colon-joined string of source
    locale, target locale and text; a cache hit returns the cached value
    with no backend call; with a backend that never fails, two calls with
    the identical triple invoke the backend at most once in total; and a
    call leaves the entry of every differently-joined key untouched, while
    triples whose colon-joins coincide share one entry. -/
theorem cache_at_most_one_backend_call :
    (∀ (b : Backend) (cache : Cache) (text sl tl v : Chars),
      isBlank text = false → lookupKV cache (cacheKey sl tl text) = some v →
      Translator.translate b cache text sl tl = ⟨v, cache, 0⟩) ∧
    (∀ (b : Backend) (cache : Cache) (text sl tl : Chars),
      (∀ x y z, b x y z ≠ none) →
      (Translator.translate b cache text sl tl).backendCalls +
        (Translator.translate b (Translator.translate b cache text sl tl).cache text sl tl).backendCalls ≤ 1) ∧
    (∀ (b : Backend) (cache : Cache) (text sl tl k : Chars),
      k ≠ cacheKey sl tl text →
      lookupKV (Translator.translate b cache text sl tl).cache k = lookupKV cache k) := by
  refine ⟨fun b cache text sl tl v hb hhit => translate_path_hit b cache text sl tl v hb hhit, ?_, ?_⟩
  · intro b cache text sl tl htotal
    by_cases hb : isBlank text = true
    · rw [translate_path_blank b cache text sl tl hb]
      rw [translate_path_blank b cache text sl tl hb]
      exact Nat.zero_le 1
    · rw [Bool.not_eq_true] at hb
      rcases hmiss : lookupKV cache (cacheKey sl tl text) with _ | v
      · by_cases hall : (splitWs (extract_placeholders text).1).all
            (fun w => ((extract_placeholders text).2.map Prod.fst).contains w) = true
        · rw [translate_path_placeholder b cache text sl tl hb hmiss hall]
          rw [translate_path_placeholder b cache text sl tl hb hmiss hall]
          exact Nat.zero_le 1
        · rw [Bool.not_eq_true] at hall
          rcases hcall : b (mapLanguageCode sl) (mapLanguageCode tl) (extract_placeholders text).1
            with _ | tr
          · exact absurd hcall (htotal _ _ _)
          · rw [translate_path_success b cache text sl tl tr hb hmiss hall hcall]
            rw [translate_path_hit b _ text sl tl _ hb (by rw [lookupKV_cons, if_pos rfl])]
            simp
      · rw [translate_path_hit b cache text sl tl v hb hmiss]
        rw [translate_path_hit b cache text sl tl v hb hmiss]
        exact Nat.zero_le 1
  · intro b cache text sl tl k hk
    by_cases hb : isBlank text = true
    · rw [translate_path_blank b cache text sl tl hb]
    · rw [Bool.not_eq_true] at hb
      rcases hmiss : lookupKV cache (cacheKey sl tl text) with _ | v
      · by_cases hall : (splitWs (extract_placeholders text).1).all
            (fun w => ((extract_placeholders text).2.map Prod.fst).contains w) = true
        · rw [translate_path_placeholder b cache text sl tl hb hmiss hall]
        · rw [Bool.not_eq_true] at hall
          rcases hcall : b (mapLanguageCode sl) (mapLanguageCode tl) (extract_placeholders text).1
            with _ | tr
          · rw [translate_path_fail b cache text sl tl hb hmiss hall hcall]
          · rw [translate_path_success b cache text sl tl tr hb hmiss hall hcall]
            exact lookupKV_cons _ _ _ _ ▸ if_neg (fun he => hk he.symm)
      · rw [translate_path_hit b cache text sl tl v hb hmiss]

/-- Witness for C6: a concrete cache hit returns the cached value with no
    backend call and no cache change. -/
theorem cache_at_most_one_backend_call_witness :
    Translator.translate (fun _ _ _ => none)
        [(cacheKey ("en".data) ("de".data) ("Hello".data), "Hallo".data)]
        ("Hello".data) ("en".data) ("de".data) =
      ⟨"Hallo".data, [(cacheKey ("en".data) ("de".data) ("Hello".data), "Hallo".data)], 0⟩ :=
  cache_at_most_one_backend_call.1 (fun _ _ _ => none)
    [(cacheKey ("en".data) ("de".data) ("Hello".data), "Hallo".data)]
    ("Hello".data) ("en".data) ("de".data) ("Hallo".data) (by decide) (by decide)

/-- C6 counterexample: the colon-joined key conflates the distinct triples
    (text, source, target) = ("c:t", "a", "b") and ("t", "a:b", "c"): after
    the first call is cached, the second call returns the first call's
    translation with zero backend calls, so two distinct triples share one
    cache entry, refuting the claim as stated. -/
theorem cache_key_collision_counterexample :
    (Translator.translate (fun _ _ x => some ('[' :: x ++ "]".data))
        ((Translator.translate (fun _ _ x => some ('[' :: x ++ "]".data)) []
          ("c:t".data) ("a".data) ("b".data)).cache)
        ("t".data) ("a:b".data) ("c".data)).text = "[c:t]".data ∧
    (Translator.translate (fun _ _ x => some ('[' :: x ++ "]".data))
        ((Translator.translate (fun _ _ x => some ('[' :: x ++ "]".data)) []
          ("c:t".data) ("a".data) ("b".data)).cache)
        ("t".data) ("a:b".data) ("c".data)).backendCalls = 0 ∧
    cacheKey ("a:b".data) ("c".data) ("t".data) = cacheKey ("a".data) ("b".data) ("c:t".data) ∧
    (("t".data, "a:b".data, "c".data) : Chars × Chars × Chars) ≠ ("c:t".data, "a".data, "b".data) := by
  refine ⟨?_, ?_, ?_, ?_⟩ <;> decide

/- ### Bundle-level lemmas -/

theorem setFileTargetLanguage_getD (tl : Chars) (f : FileElem) :
    (setFileTargetLanguage tl f).targetLanguage.getD [] = tl := by
  unfold setFileTargetLanguage
  by_cases h : f.targetLanguage.getD [] ≠ tl
  · rw [if_pos h]
    rfl
  · rw [if_neg h]
    exact not_ne_iff.mp h

theorem translate_file_files (b : Backend) (sl tl : Chars) (cache : Cache) (doc : XliffDoc) :
    (translate_file b sl tl cache doc).doc.files =
      (doc.files.map (setFileTargetLanguage tl)).map (setFileTargetLanguage tl) := rfl

theorem translate_file_files_ok (b : Backend) (sl tl : Chars) (cache : Cache) (doc : XliffDoc) :
    ∀ f ∈ (translate_file b sl tl cache doc).doc.files, f.targetLanguage.getD [] = tl := by
  intro f hf
  rw [translate_file_files] at hf
  obtain ⟨g, _, rfl⟩ := List.mem_map.mp hf
  exact setFileTargetLanguage_getD tl g

theorem verifyDoc_translate_file (b : Backend) (sl tl : Chars) (cache : Cache) (doc : XliffDoc) :
    verifyDoc (translate_file b sl tl cache doc).doc tl = true := by
  unfold verifyDoc
  rw [List.all_eq_true]
  intro f hf
  have := translate_file_files_ok b sl tl cache doc f hf
  simp [this]

theorem verifyDoc_files (doc : XliffDoc) (tl : Chars) (h : verifyDoc doc tl = true) :
    ∀ f ∈ doc.files, f.targetLanguage.getD [] = tl := by
  intro f hf
  unfold verifyDoc at h
  rw [List.all_eq_true] at h
  have := h f hf
  simpa using this

theorem translateItems_nil (b : Backend) (sl tl : Chars) (cache : Cache) :
    translateItems b sl tl cache [] = ⟨[], cache, true⟩ := rfl

theorem translateItems_bad_cons (b : Backend) (sl tl : Chars) (cache : Cache) (r : Chars)
    (rest : List XItem) :
    translateItems b sl tl cache (XItem.bad r :: rest) =
      ⟨XItem.bad r :: (translateItems b sl tl cache rest).items,
        (translateItems b sl tl cache rest).cache,
        false && (translateItems b sl tl cache rest).success⟩ := rfl

theorem translateItems_ok_cons (b : Backend) (sl tl : Chars) (cache : Cache) (d : XliffDoc)
    (rest : List XItem) :
    translateItems b sl tl cache (XItem.ok d :: rest) =
      ⟨XItem.ok (translate_file b sl tl cache d).doc ::
          (translateItems b sl tl (translate_file b sl tl cache d).cache rest).items,
        (translateItems b sl tl (translate_file b sl tl cache d).cache rest).cache,
        (translate_file b sl tl cache d).success &&
          (translateItems b sl tl (translate_file b sl tl cache d).cache rest).success⟩ := rfl

theorem translateItems_ok_verified (b : Backend) (sl tl : Chars) :
    ∀ (items : List XItem) (cache : Cache) (d : XliffDoc),
      XItem.ok d ∈ (translateItems b sl tl cache items).items → verifyDoc d tl = true := by
  intro items
  induction items with
  | nil => intro cache d h; simp [translateItems_nil] at h
  | cons it rest ih =>
    intro cache d h
    cases it with
    | bad r =>
      rw [translateItems_bad_cons] at h
      rcases List.mem_cons.mp h with h1 | h2
      · exact absurd h1 (by simp)
      · exact ih cache d h2
    | ok dd =>
      rw [translateItems_ok_cons] at h
      rcases List.mem_cons.mp h with h1 | h2
      · have hd : d = (translate_file b sl tl cache dd).doc := by
          simpa using h1
        rw [hd]
        exact verifyDoc_translate_file b sl tl cache dd
      · exact ih _ d h2

theorem translateItems_bad_at (b : Backend) (sl tl : Chars) :
    ∀ (items : List XItem) (cache : Cache) (i : Nat) (r : Chars),
      items[i]? = some (XItem.bad r) →
      (translateItems b sl tl cache items).items[i]? = some (XItem.bad r) ∧
      (translateItems b sl tl cache items).success = false := by
  intro items
  induction items with
  | nil => intro cache i r h; simp at h
  | cons it rest ih =>
    intro cache i r h
    cases i with
    | zero =>
      simp only [List.getElem?_cons_zero, Option.some.injEq] at h
      subst h
      rw [translateItems_bad_cons]
      exact ⟨by simp, by simp⟩
    | succ j =>
      simp only [List.getElem?_cons_succ] at h
      cases it with
      | bad r2 =>
        rw [translateItems_bad_cons]
        obtain ⟨h1, h2⟩ := ih cache j r h
        refine ⟨?_, by simp⟩
        show (XItem.bad r2 :: (translateItems b sl tl cache rest).items)[j + 1]? = some (XItem.bad r)
        rw [List.getElem?_cons_succ]
        exact h1
      | ok dd =>
        rw [translateItems_ok_cons]
        obtain ⟨h1, h2⟩ := ih (translate_file b sl tl cache dd).cache j r h
        constructor
        · show (XItem.ok (translate_file b sl tl cache dd).doc ::
            (translateItems b sl tl (translate_file b sl tl cache dd).cache rest).items)[j + 1]? =
              some (XItem.bad r)
          rw [List.getElem?_cons_succ]
          exact h1
        · show ((translate_file b sl tl cache dd).success &&
            (translateItems b sl tl (translate_file b sl tl cache dd).cache rest).success) = false
          rw [h2, Bool.and_false]

theorem translateItems_ok_at (b : Backend) (sl tl : Chars) :
    ∀ (items : List XItem) (cache : Cache) (j : Nat) (d : XliffDoc),
      items[j]? = some (XItem.ok d) →
      ∃ cache2, (translateItems b sl tl cache items).items[j]? =
        some (XItem.ok (translate_file b sl tl cache2 d).doc) := by
  intro items
  induction items with
  | nil => intro cache j d h; simp at h
  | cons it rest ih =>
    intro cache j d h
    cases j with
    | zero =>
      simp only [List.getElem?_cons_zero, Option.some.injEq] at h
      subst h
      rw [translateItems_ok_cons]
      exact ⟨cache, by simp⟩
    | succ j' =>
      simp only [List.getElem?_cons_succ] at h
      cases it with
      | bad r2 =>
        rw [translateItems_bad_cons]
        obtain ⟨c2, h1⟩ := ih cache j' d h
        refine ⟨c2, ?_⟩
        show (XItem.bad r2 :: (translateItems b sl tl cache rest).items)[j' + 1]? =
          some (XItem.ok (translate_file b sl tl c2 d).doc)
        rw [List.getElem?_cons_succ]
        exact h1
      | ok dd =>
        rw [translateItems_ok_cons]
        obtain ⟨c2, h1⟩ := ih (translate_file b sl tl cache dd).cache j' d h
        refine ⟨c2, ?_⟩
        show (XItem.ok (translate_file b sl tl cache dd).doc ::
          (translateItems b sl tl (translate_file b sl tl cache dd).cache rest).items)[j' + 1]? =
            some (XItem.ok (translate_file b sl tl c2 d).doc)
        rw [List.getElem?_cons_succ]
        exact h1

theorem processBundle_some (b : Backend) (inp : BundleIn) (tl : Chars)
    (hsl : ¬ (lookupKV inp.manifest developmentRegionKey).getD [] = []) :
    processBundle b inp tl =
      some (⟨(if lookupKV (updateTargetLocale inp.manifest tl) targetLocaleKey ≠ some tl then
                updateTargetLocale (updateTargetLocale inp.manifest tl) tl
              else updateTargetLocale inp.manifest tl),
              (translateItems b ((lookupKV inp.manifest developmentRegionKey).getD []) tl []
                inp.items).items.map (fixStep tl)⟩,
            (translateItems b ((lookupKV inp.manifest developmentRegionKey).getD []) tl []
              inp.items).success) := by
  unfold processBundle
  simp only []
  rw [if_neg hsl]

theorem lookupKV_updateTargetLocale {α : Type} (m : List (Chars × α)) (v : α) :
    lookupKV (updateTargetLocale m v) targetLocaleKey = some v := by
  unfold updateTargetLocale
  by_cases hc : (m.map Prod.fst).contains targetLocaleKey = true
  · rw [if_pos hc]
    exact lookupKV_map_replace_self m v hc
  · rw [if_neg hc]
    exact lookupKV_append_single m targetLocaleKey v
      (lookupKV_of_contains_eq_false m targetLocaleKey
        (by rw [Bool.not_eq_true] at hc; exact hc))

theorem processBundle_none (b : Backend) (inp : BundleIn) (tl : Chars)
    (hsl : (lookupKV inp.manifest developmentRegionKey).getD [] = []) :
    processBundle b inp tl = none := by
  unfold processBundle
  simp only []
  rw [if_pos hsl]

theorem fixStep_ok_verified (tl : Chars) (d : XliffDoc) (hv : verifyDoc d tl = true) :
    fixStep tl (XItem.ok d) = XItem.ok d := by
  show (if verifyDoc d tl = true then XItem.ok d else XItem.ok (forceFixDoc tl d)) = XItem.ok d
  rw [if_pos hv]

/-- C2: after a completed orchestrator run, every file element of every
    parsed output document carries exactly the configured target language
    (read as the code reads the attribute, with an empty default), and the
    output manifest's targetLocale field equals the configured value. -/
theorem locale_invariant_after_process (b : Backend) (inp : BundleIn) (tl : Chars)
    (out : BundleOut) (succ : Bool) (hrun : processBundle b inp tl = some (out, succ)) :
    (∀ d, XItem.ok d ∈ out.items → ∀ f ∈ d.files, f.targetLanguage.getD [] = tl) ∧
    lookupKV out.manifest targetLocaleKey = some tl := by
  by_cases hsl : (lookupKV inp.manifest developmentRegionKey).getD [] = []
  · rw [processBundle_none b inp tl hsl] at hrun
    exact absurd hrun (by simp)
  · rw [processBundle_some b inp tl hsl] at hrun
    simp only [Option.some.injEq, Prod.mk.injEq] at hrun
    obtain ⟨hout, hsucc⟩ := hrun
    subst hout
    constructor
    · intro d hd f hf
      obtain ⟨y, hy, hfy⟩ := List.mem_map.mp hd
      cases y with
      | bad r => simp [fixStep] at hfy
      | ok dd =>
        have hv : verifyDoc dd tl = true :=
          translateItems_ok_verified b _ tl inp.items [] dd hy
        rw [fixStep_ok_verified tl dd hv] at hfy
        have hdd : dd = d := by simpa using hfy
        subst hdd
        exact verifyDoc_files dd tl hv f hf
    · have hm1 : lookupKV (updateTargetLocale inp.manifest tl) targetLocaleKey = some tl :=
        lookupKV_updateTargetLocale inp.manifest tl
      show lookupKV (if lookupKV (updateTargetLocale inp.manifest tl) targetLocaleKey ≠ some tl then
          updateTargetLocale (updateTargetLocale inp.manifest tl) tl
        else updateTargetLocale inp.manifest tl) targetLocaleKey = some tl
      rw [if_neg (not_ne_iff.mpr hm1)]
      exact hm1

/-- Witness for C2 at a concrete one-document bundle translated with a
    failing backend. -/
theorem locale_invariant_after_process_witness :
    (∀ d, XItem.ok d ∈ (⟨[(developmentRegionKey, "en".data), (targetLocaleKey, "de".data)],
        [XItem.ok ⟨[⟨some ("de".data), none⟩], []⟩]⟩ : BundleOut).items →
      ∀ f ∈ d.files, f.targetLanguage.getD [] = "de".data) ∧
    lookupKV (⟨[(developmentRegionKey, "en".data), (targetLocaleKey, "de".data)],
        [XItem.ok ⟨[⟨some ("de".data), none⟩], []⟩]⟩ : BundleOut).manifest targetLocaleKey =
      some ("de".data) :=
  locale_invariant_after_process (fun _ _ _ => none)
    ⟨[(developmentRegionKey, "en".data)], [XItem.ok ⟨[⟨some ("fr".data), none⟩], []⟩]⟩
    ("de".data)
    ⟨[(developmentRegionKey, "en".data), (targetLocaleKey, "de".data)],
      [XItem.ok ⟨[⟨some ("de".data), none⟩], []⟩]⟩ true (by decide)

/-- C4 (amended): a document whose parse fails makes translate_file report
    failure without touching it at the translation stage, the run's overall
    flag is false, and the remaining documents are still processed; the
    final consistency pass, however, does rewrite the failed document's raw
    copied text, force-substituting every target-language attribute. -/
theorem parse_failure_document (b : Backend) (inp : BundleIn) (tl : Chars)
    (out : BundleOut) (succ : Bool) (i : Nat) (r : Chars)
    (hrun : processBundle b inp tl = some (out, succ))
    (hbad : inp.items[i]? = some (XItem.bad r)) :
    succ = false ∧
    (∀ (cache : Cache) (sl : Chars),
      (translateItems b sl tl cache inp.items).items[i]? = some (XItem.bad r)) ∧
    out.items[i]? = some (XItem.bad (forceFix tl r)) ∧
    (∀ (j : Nat) (d : XliffDoc), inp.items[j]? = some (XItem.ok d) →
      ∃ d2, out.items[j]? = some (XItem.ok d2) ∧ ∀ f ∈ d2.files, f.targetLanguage.getD [] = tl) := by
  by_cases hsl : (lookupKV inp.manifest developmentRegionKey).getD [] = []
  · rw [processBundle_none b inp tl hsl] at hrun
    exact absurd hrun (by simp)
  · rw [processBundle_some b inp tl hsl] at hrun
    simp only [Option.some.injEq, Prod.mk.injEq] at hrun
    obtain ⟨hout, hsucc⟩ := hrun
    subst hout
    refine ⟨?_, ?_, ?_, ?_⟩
    · rw [← hsucc]
      exact (translateItems_bad_at b _ tl inp.items [] i r hbad).2
    · intro cache sl
      exact (translateItems_bad_at b sl tl inp.items cache i r hbad).1
    · show ((translateItems b ((lookupKV inp.manifest developmentRegionKey).getD []) tl []
        inp.items).items.map (fixStep tl))[i]? = some (XItem.bad (forceFix tl r))
      rw [List.getElem?_map,
        (translateItems_bad_at b _ tl inp.items [] i r hbad).1]
      rfl
    · intro j d hd
      obtain ⟨c2, hj⟩ := translateItems_ok_at b _ tl inp.items [] j d hd
      refine ⟨(translate_file b ((lookupKV inp.manifest developmentRegionKey).getD []) tl c2 d).doc,
        ?_, translate_file_files_ok b _ tl c2 d⟩
      show ((translateItems b ((lookupKV inp.manifest developmentRegionKey).getD []) tl []
        inp.items).items.map (fixStep tl))[j]? = _
      rw [List.getElem?_map, hj]
      simp only [Option.map_some']
      rw [fixStep_ok_verified tl _ (verifyDoc_translate_file b _ tl c2 d)]

/-- C4 counterexample: with one unparseable document containing a
    target-language attribute, the completed run leaves the output file
    text force-rewritten, not byte-identical to the copied input, refuting
    the claim that the pipeline performs no write on it. -/
theorem parse_failure_document_counterexample :
    processBundle (fun _ _ _ => none)
        ⟨[(developmentRegionKey, "en".data)],
          [XItem.bad ("<xliff target-language=\"fr\">".data)]⟩ ("de".data) =
      some (⟨[(developmentRegionKey, "en".data), (targetLocaleKey, "de".data)],
              [XItem.bad ("<xliff target-language=\"de\">".data)]⟩, false) ∧
    ("<xliff target-language=\"de\">".data : Chars) ≠ "<xliff target-language=\"fr\">".data := by
  exact ⟨by decide, by decide⟩

/-- Witness for C4 at a concrete bundle holding one unparseable document. -/
theorem parse_failure_document_witness :
    false = false ∧
    (∀ (cache : Cache) (sl : Chars),
      (translateItems (fun _ _ _ => none) sl ("de".data) cache
        [XItem.bad ("<xliff target-language=\"fr\">".data)]).items[0]? =
        some (XItem.bad ("<xliff target-language=\"fr\">".data))) ∧
    (⟨[(developmentRegionKey, "en".data), (targetLocaleKey, "de".data)],
        [XItem.bad (forceFix ("de".data) ("<xliff target-language=\"fr\">".data))]⟩ :
      BundleOut).items[0]? =
      some (XItem.bad (forceFix ("de".data) ("<xliff target-language=\"fr\">".data))) ∧
    (∀ (j : Nat) (d : XliffDoc),
      (([XItem.bad ("<xliff target-language=\"fr\">".data)] : List XItem))[j]? =
        some (XItem.ok d) →
      ∃ d2, (⟨[(developmentRegionKey, "en".data), (targetLocaleKey, "de".data)],
          [XItem.bad (forceFix ("de".data) ("<xliff target-language=\"fr\">".data))]⟩ :
        BundleOut).items[j]? = some (XItem.ok d2) ∧
        ∀ f ∈ d2.files, f.targetLanguage.getD [] = "de".data) :=
  parse_failure_document (fun _ _ _ => none)
    ⟨[(developmentRegionKey, "en".data)], [XItem.bad ("<xliff target-language=\"fr\">".data)]⟩
    ("de".data)
    ⟨[(developmentRegionKey, "en".data), (targetLocaleKey, "de".data)],
      [XItem.bad (forceFix ("de".data) ("<xliff target-language=\"fr\">".data))]⟩
    false 0 ("<xliff target-language=\"fr\">".data) (by decide) (by decide)

/- ### Force-fix substitution lemmas -/

theorem forceFixAux_nil (tl : Chars) (f : Nat) : forceFixAux tl f [] = [] := by
  cases f <;> rfl

theorem forceFixAux_succ (tl : Chars) (f : Nat) (c : Char) (rest : Chars) :
    forceFixAux tl (f + 1) (c :: rest) =
      if tlPat.isPrefixOf (c :: rest) then
        match splitUntil '"' ((c :: rest).drop tlPat.length) with
        | some (_, after) => tlPat ++ tl ++ '"' :: forceFixAux tl f after
        | none => c :: forceFixAux tl f rest
      else c :: forceFixAux tl f rest := rfl

theorem splitUntil_after_length {stop : Char} {l a b : Chars}
    (h : splitUntil stop l = some (a, b)) : b.length < l.length := by
  obtain ⟨hl, _⟩ := splitUntil_eq_some h
  rw [hl]
  simp only [List.length_append, List.length_cons]
  omega

theorem tlPat_length : tlPat.length = 17 := rfl

theorem forceFixAux_fuel (tl : Chars) :
    ∀ (f g : Nat) (s : Chars), s.length ≤ f → s.length ≤ g →
      forceFixAux tl f s = forceFixAux tl g s := by
  intro f
  induction f with
  | zero =>
    intro g s hf _
    have hs : s = [] := List.eq_nil_of_length_eq_zero (Nat.le_zero.mp hf)
    subst hs
    rw [forceFixAux_nil, forceFixAux_nil]
  | succ f ih =>
    intro g s hf hg
    match s, g with
    | [], g => rw [forceFixAux_nil, forceFixAux_nil]
    | c :: rest, 0 => exact absurd hg (by simp)
    | c :: rest, Nat.succ g' =>
      rw [forceFixAux_succ, forceFixAux_succ]
      by_cases hpre : tlPat.isPrefixOf (c :: rest) = true
      · rw [if_pos hpre, if_pos hpre]
        rcases hsp : splitUntil '"' ((c :: rest).drop tlPat.length) with _ | p
        · simp only [hsp]
          rw [ih _ rest (Nat.le_of_succ_le_succ hf) (Nat.le_of_succ_le_succ hg)]
        · obtain ⟨ins, after⟩ := p
          simp only [hsp]
          have hb : after.length ≤ rest.length := by
            have h1 := splitUntil_after_length hsp
            simp only [List.length_drop, List.length_cons, tlPat_length] at h1
            omega
          rw [ih _ after (le_trans hb (Nat.le_of_succ_le_succ hf))
            (le_trans hb (Nat.le_of_succ_le_succ hg))]
      · rw [if_neg hpre, if_neg hpre]
        rw [ih _ rest (Nat.le_of_succ_le_succ hf) (Nat.le_of_succ_le_succ hg)]

theorem forceFix_nil (tl : Chars) : forceFix tl [] = [] := rfl

theorem forceFix_cons_hit (tl : Chars) {c : Char} {rest ins after : Chars}
    (hpre : tlPat.isPrefixOf (c :: rest) = true)
    (hsp : splitUntil '"' ((c :: rest).drop tlPat.length) = some (ins, after)) :
    forceFix tl (c :: rest) = tlPat ++ tl ++ '"' :: forceFix tl after := by
  unfold forceFix
  rw [List.length_cons, forceFixAux_succ, if_pos hpre]
  simp only [hsp]
  have hb : after.length ≤ rest.length := by
    have h1 := splitUntil_after_length hsp
    simp only [List.length_drop, List.length_cons, tlPat_length] at h1
    omega
  rw [forceFixAux_fuel tl rest.length after.length after hb (le_refl _)]

theorem forceFix_cons_miss_nopre (tl : Chars) {c : Char} {rest : Chars}
    (h : ¬ tlPat.isPrefixOf (c :: rest) = true) :
    forceFix tl (c :: rest) = c :: forceFix tl rest := by
  unfold forceFix
  rw [List.length_cons, forceFixAux_succ, if_neg h]

theorem forceFix_cons_miss_noquote (tl : Chars) {c : Char} {rest : Chars}
    (hsp : splitUntil '"' ((c :: rest).drop tlPat.length) = none) :
    forceFix tl (c :: rest) = c :: forceFix tl rest := by
  unfold forceFix
  rw [List.length_cons, forceFixAux_succ]
  by_cases hpre : tlPat.isPrefixOf (c :: rest) = true
  · rw [if_pos hpre]
    simp only [hsp]
  · rw [if_neg hpre]

theorem tlPat_head_cons : tlPat = 't' :: tlPat.drop 1 := rfl

theorem quote_mem_tlPat : '"' ∈ tlPat := by decide

theorem tlPat_border : ∀ k, k < tlPat.length → 1 ≤ k →
    tlPat.take (tlPat.length - k) ≠ tlPat.drop k := by decide

theorem forceFix_of_no_quote (tl : Chars) : ∀ {z : Chars}, '"' ∉ z → forceFix tl z = z := by
  intro z
  induction z with
  | nil => intro _; rfl
  | cons c r ih =>
    intro h
    have hmiss : ¬ tlPat.isPrefixOf (c :: r) = true := by
      intro hp
      exact h (List.IsPrefix.mem quote_mem_tlPat (List.isPrefixOf_iff_prefix.mp hp))
    rw [forceFix_cons_miss_nopre tl hmiss]
    rw [ih (fun hx => h (List.mem_cons_of_mem c hx))]

theorem prefix_take_eq {p X : Chars} (hpre : p <+: X) {n : Nat} (hn : n ≤ p.length) :
    X.take n = p.take n := by
  have h1 : p = X.take p.length := List.prefix_iff_eq_take.mp hpre
  calc X.take n = (X.take p.length).take n := by
        rw [List.take_take, Nat.min_eq_left hn]
    _ = p.take n := by rw [← h1]

theorem not_tlPat_prefix_drop {j : Nat} (h1 : 1 ≤ j) (h2 : j < tlPat.length) (z : Chars) :
    ¬ tlPat <+: tlPat.drop j ++ z := by
  intro hpre
  have hlen : (tlPat.drop j).length = tlPat.length - j := by simp
  have htake : (tlPat.drop j ++ z).take (tlPat.length - j) = tlPat.drop j :=
    List.take_left' hlen
  have h3 : tlPat.take (tlPat.length - j) = tlPat.drop j := by
    rw [← htake]
    exact (prefix_take_eq hpre (by omega)).symm
  exact tlPat_border j h2 h1 h3

theorem forceFix_drop_noquote (tl : Chars) :
    ∀ (n j : Nat) (z : Chars), tlPat.length - j ≤ n → 1 ≤ j → '"' ∉ z →
      forceFix tl (tlPat.drop j ++ z) = tlPat.drop j ++ z := by
  intro n
  induction n with
  | zero =>
    intro j z hn h1 hz
    have hdrop : tlPat.drop j = [] := List.drop_eq_nil_of_le (by omega)
    rw [hdrop, List.nil_append]
    exact forceFix_of_no_quote tl hz
  | succ n ih =>
    intro j z hn h1 hz
    by_cases hlt : j < tlPat.length
    · have hdj : tlPat.drop j = tlPat[j] :: tlPat.drop (j + 1) := List.drop_eq_getElem_cons hlt
      have hmiss : ¬ tlPat.isPrefixOf (tlPat.drop j ++ z) = true := by
        intro hp
        exact not_tlPat_prefix_drop h1 hlt z (List.isPrefixOf_iff_prefix.mp hp)
      rw [hdj, List.cons_append] at hmiss
      rw [hdj, List.cons_append]
      rw [forceFix_cons_miss_nopre tl hmiss]
      rw [ih (j + 1) z (by omega) (by omega) hz]
    · have hdrop : tlPat.drop j = [] := List.drop_eq_nil_of_le (by omega)
      rw [hdrop, List.nil_append]
      exact forceFix_of_no_quote tl hz

theorem forceFix_no_new_prefix (tl : Chars) :
    ∀ (rest : Chars) (k : Nat), 1 ≤ k → k < tlPat.length →
      ¬ (tlPat.drop k) <+: rest → ¬ (tlPat.drop k) <+: forceFix tl rest := by
  intro rest
  induction rest with
  | nil =>
    intro k _ _ h3 hc
    rw [forceFix_nil] at hc
    exact h3 hc
  | cons d r2 ih =>
    intro k h1 h2 hno
    have hmiss_common : ¬ (tlPat.drop k) <+: d :: forceFix tl r2 := by
      intro hcon
      have hdk : tlPat.drop k = tlPat[k] :: tlPat.drop (k + 1) := List.drop_eq_getElem_cons h2
      rw [hdk, List.cons_prefix_cons] at hcon
      obtain ⟨hd, htail⟩ := hcon
      rw [hdk, List.cons_prefix_cons] at hno
      by_cases hk : k + 1 < tlPat.length
      · have hnot : ¬ (tlPat.drop (k + 1)) <+: r2 := by
          intro hx
          exact hno ⟨hd, hx⟩
        exact ih (k + 1) (by omega) hk hnot htail
      · have hk17 : k + 1 = tlPat.length := by omega
        have : tlPat.drop (k + 1) = [] := by rw [hk17]; simp
        rw [this] at hno
        exact hno ⟨hd, List.nil_prefix⟩
    by_cases hpre : tlPat.isPrefixOf (d :: r2) = true
    · rcases hsp : splitUntil '"' ((d :: r2).drop tlPat.length) with _ | p
      · rw [forceFix_cons_miss_noquote tl hsp]
        exact hmiss_common
      · obtain ⟨ins, after⟩ := p
        rw [forceFix_cons_hit tl hpre hsp]
        intro hcon
        have hlen : (tlPat.drop k).length = tlPat.length - k := by simp
        have htake1 : tlPat.drop k = (tlPat ++ (tl ++ '"' :: forceFix tl after)).take (tlPat.length - k) := by
          have := List.prefix_iff_eq_take.mp hcon
          rw [this, hlen, List.append_assoc]
        have htake2 : (tlPat ++ (tl ++ '"' :: forceFix tl after)).take (tlPat.length - k) =
            tlPat.take (tlPat.length - k) :=
          List.take_append_of_le_length (by omega)
        rw [htake2] at htake1
        exact tlPat_border k h2 h1 htake1.symm
    · rw [forceFix_cons_miss_nopre tl hpre]
      exact hmiss_common

theorem splitUntil_append_quote {tl : Chars} (htl : '"' ∉ tl) (X : Chars) :
    splitUntil '"' (tl ++ '"' :: X) = some (tl, X) := by
  induction tl with
  | nil => simp [splitUntil]
  | cons a r ih =>
    have ha : ¬ a = '"' := fun h => htl (by rw [h]; exact List.mem_cons_self _ _)
    rw [List.cons_append]
    unfold splitUntil
    rw [if_neg ha]
    rw [ih (fun hx => htl (List.mem_cons_of_mem a hx))]
    rfl

theorem forceFix_append_hit (tl : Chars) (htl : '"' ∉ tl) (X : Chars) :
    forceFix tl (tlPat ++ tl ++ '"' :: X) = tlPat ++ tl ++ '"' :: forceFix tl X := by
  have hcons : tlPat ++ tl ++ '"' :: X = 't' :: (tlPat.drop 1 ++ (tl ++ '"' :: X)) := by
    conv_lhs => rw [tlPat_head_cons]
    simp
  have hpre : tlPat.isPrefixOf ('t' :: (tlPat.drop 1 ++ (tl ++ '"' :: X))) = true := by
    rw [List.isPrefixOf_iff_prefix, ← hcons, List.append_assoc]
    exact List.prefix_append tlPat (tl ++ '"' :: X)
  have hsp : splitUntil '"' (('t' :: (tlPat.drop 1 ++ (tl ++ '"' :: X))).drop tlPat.length) =
      some (tl, X) := by
    rw [← hcons, List.append_assoc, List.drop_left]
    exact splitUntil_append_quote htl X
  rw [hcons, forceFix_cons_hit tl hpre hsp]

theorem forceFix_idem_aux (tl : Chars) (htl : '"' ∉ tl) :
    ∀ (n : Nat) (s : Chars), s.length ≤ n →
      forceFix tl (forceFix tl s) = forceFix tl s := by
  intro n
  induction n with
  | zero =>
    intro s h
    have hs : s = [] := List.eq_nil_of_length_eq_zero (Nat.le_zero.mp h)
    subst hs
    rfl
  | succ n ih =>
    intro s hlen
    cases s with
    | nil => rfl
    | cons c rest =>
      by_cases hpre : tlPat.isPrefixOf (c :: rest) = true
      · rcases hsp : splitUntil '"' ((c :: rest).drop tlPat.length) with _ | p
        · have hz : '"' ∉ (c :: rest).drop tlPat.length := splitUntil_eq_none.mp hsp
          have hppre : tlPat <+: c :: rest := List.isPrefixOf_iff_prefix.mp hpre
          have hdecomp : c :: rest = tlPat ++ (c :: rest).drop tlPat.length := by
            conv_lhs => rw [← List.take_append_drop tlPat.length (c :: rest)]
            rw [← List.prefix_iff_eq_take.mp hppre]
          have hrest : rest = tlPat.drop 1 ++ (c :: rest).drop tlPat.length := by
            have h1 := congrArg List.tail hdecomp
            simp only [List.tail_cons] at h1
            rw [h1]
            rw [tlPat_head_cons]
            rfl
          have hFs : forceFix tl (c :: rest) = c :: rest := by
            rw [forceFix_cons_miss_noquote tl hsp]
            conv_lhs => rw [hrest]
            rw [forceFix_drop_noquote tl tlPat.length 1 _ (by omega) (le_refl 1) hz]
            rw [← hrest]
          rw [hFs, hFs]
        · obtain ⟨ins, after⟩ := p
          rw [forceFix_cons_hit tl hpre hsp]
          rw [forceFix_append_hit tl htl]
          have hb : after.length ≤ n := by
            have h1 := splitUntil_after_length hsp
            simp only [List.length_drop, List.length_cons, tlPat_length] at h1
            simp only [List.length_cons] at hlen
            omega
          rw [ih after hb]
      · have hFs : forceFix tl (c :: rest) = c :: forceFix tl rest := forceFix_cons_miss_nopre tl hpre
        rw [hFs]
        have hmiss2 : ¬ tlPat.isPrefixOf (c :: forceFix tl rest) = true := by
          intro hp
          rw [List.isPrefixOf_iff_prefix] at hp
          rw [tlPat_head_cons, List.cons_prefix_cons] at hp
          obtain ⟨hc, htail⟩ := hp
          have hnopre : ¬ (tlPat.drop 1) <+: rest := by
            intro hx
            apply hpre
            rw [List.isPrefixOf_iff_prefix, tlPat_head_cons, List.cons_prefix_cons]
            exact ⟨hc, hx⟩
          exact forceFix_no_new_prefix tl rest 1 (le_refl 1) (by rw [tlPat_length]; omega)
            hnopre htail
        rw [forceFix_cons_miss_nopre tl hmiss2]
        have hb : rest.length ≤ n := by
          simp only [List.length_cons] at hlen
          omega
        rw [ih rest hb]

/-- C10 (amended): the force fix rewrites every raw-text occurrence of a
    target-language attribute assignment with the configured locale,
    including occurrences sitting inside free text content, and it is
    idempotent whenever the configured locale contains no double-quote
    character. -/
theorem forceFix_rewrites_and_idempotent :
    (∀ (tl : Chars), '"' ∉ tl → ∀ (s : Chars),
      forceFix tl (forceFix tl s) = forceFix tl s) ∧
    forceFix ("de".data) ("<source>target-language=\"x\" free</source>".data) =
      "<source>target-language=\"de\" free</source>".data := by
  refine ⟨?_, by decide⟩
  intro tl htl s
  exact forceFix_idem_aux tl htl s.length s (le_refl _)

/-- Witness for C10: idempotence at a concrete document and locale. -/
theorem forceFix_rewrites_and_idempotent_witness :
    forceFix ("de".data) (forceFix ("de".data) ("<file target-language=\"fr\"><body/>".data)) =
      forceFix ("de".data) ("<file target-language=\"fr\"><body/>".data) :=
  forceFix_rewrites_and_idempotent.1 ("de".data) (by decide)
    ("<file target-language=\"fr\"><body/>".data)

/-- C10 counterexample: with a configured locale containing a double quote
    the force fix is not idempotent, refuting the unconditional idempotence
    stated by the claim. -/
theorem forceFix_not_idempotent_counterexample :
    forceFix ("\"".data) (forceFix ("\"".data) ("target-language=\"x\"".data)) ≠
      forceFix ("\"".data) ("target-language=\"x\"".data) := by
  decide

/- ### Placeholder round-trip lemmas -/

theorem renderMasked_lit (i : Nat) (c : Char) (cs : List Chunk) :
    renderMasked i (Chunk.lit c :: cs) = c :: renderMasked i cs := rfl

theorem renderMasked_spec (i : Nat) (s : Chars) (cs : List Chunk) :
    renderMasked i (Chunk.spec s :: cs) = token i ++ renderMasked (i + 1) cs := rfl

theorem renderOrig_lit (c : Char) (cs : List Chunk) :
    renderOrig (Chunk.lit c :: cs) = c :: renderOrig cs := rfl

theorem renderOrig_spec (s : Chars) (cs : List Chunk) :
    renderOrig (Chunk.spec s :: cs) = s ++ renderOrig cs := rfl

theorem mapFrom_lit (i : Nat) (c : Char) (cs : List Chunk) :
    mapFrom i (Chunk.lit c :: cs) = mapFrom i cs := rfl

theorem mapFrom_spec (i : Nat) (s : Chars) (cs : List Chunk) :
    mapFrom i (Chunk.spec s :: cs) = (token i, s) :: mapFrom (i + 1) cs := rfl

theorem specsOf_lit (c : Char) (cs : List Chunk) :
    specsOf (Chunk.lit c :: cs) = specsOf cs := rfl

theorem specsOf_spec (s : Chars) (cs : List Chunk) :
    specsOf (Chunk.spec s :: cs) = s :: specsOf cs := rfl

theorem marker_length : marker.length = 14 := rfl

theorem marker_head_cons : marker = 'P' :: marker.drop 1 := rfl

theorem marker_border : ∀ k, k < marker.length → 1 ≤ k →
    marker.take (marker.length - k) ≠ marker.drop k := by decide

theorem marker_drop_head : ∀ k, k < marker.length → 1 ≤ k →
    (marker.drop k).head? ≠ some 'P' := by decide

theorem dstr_ne_nil : ∀ i, i < 10 → (Nat.repr i).data ≠ [] := by decide

theorem dstr_len1 : ∀ i, i < 10 → ((Nat.repr i).data).length = 1 := by decide

theorem dstr_head_ne_P : ∀ i, i < 10 → ((Nat.repr i).data).head? ≠ some 'P' := by decide

theorem dstr_head_inj : ∀ i, i < 10 → ∀ j, j < 10 →
    ((Nat.repr i).data).head? = ((Nat.repr j).data).head? → i = j := by decide

theorem P_not_mem_marker_drop1 : 'P' ∉ marker.drop 1 := by decide

theorem P_not_mem_dstr : ∀ i, i < 10 → 'P' ∉ (Nat.repr i).data := by decide

theorem token_eq_cons (i : Nat) : token i = 'P' :: (marker.drop 1 ++ (Nat.repr i).data) := rfl

theorem token_ne_nil (i : Nat) : token i ≠ [] := by
  rw [token_eq_cons]
  simp

theorem P_not_mem_token_tail (i : Nat) (hi : i < 10) :
    'P' ∉ marker.drop 1 ++ (Nat.repr i).data := by
  intro h
  rcases List.mem_append.mp h with h1 | h2
  · exact P_not_mem_marker_drop1 h1
  · exact P_not_mem_dstr i hi h2

theorem occurs_marker_of_occurs_token {i : Nat} {s : Chars} (h : Occurs (token i) s) :
    Occurs marker s := by
  obtain ⟨A, B, hh⟩ := h
  refine ⟨A, (Nat.repr i).data ++ B, ?_⟩
  rw [hh, token]
  simp

theorem occurs_iff_exists_drop {p s : Chars} : Occurs p s ↔ ∃ n, p <+: s.drop n := by
  constructor
  · rintro ⟨A, B, rfl⟩
    refine ⟨A.length, ?_⟩
    rw [List.append_assoc, List.drop_left]
    exact List.prefix_append p B
  · rintro ⟨n, t, ht⟩
    refine ⟨s.take n, t, ?_⟩
    rw [List.append_assoc, ht, List.take_append_drop]

theorem occurs_append_decomp {p w X : Chars} (h : Occurs p (w ++ X)) :
    (∃ k, k < w.length ∧ p <+: (w.drop k ++ X)) ∨ Occurs p X := by
  rw [occurs_iff_exists_drop] at h
  obtain ⟨n, hn⟩ := h
  by_cases hnw : n < w.length
  · left
    refine ⟨n, hnw, ?_⟩
    rwa [List.drop_append_of_le_length (le_of_lt hnw)] at hn
  · right
    rw [occurs_iff_exists_drop]
    refine ⟨n - w.length, ?_⟩
    have : n = w.length + (n - w.length) := by omega
    rwa [this, List.drop_append] at hn

theorem prefix_head?_eq {p X : Chars} (h : p <+: X) (hp : p ≠ []) : X.head? = p.head? := by
  obtain ⟨t, ht⟩ := h
  rw [← ht]
  cases p with
  | nil => exact absurd rfl hp
  | cons a r => rfl

theorem head?_append_of_ne_nil {a : Chars} (b : Chars) (ha : a ≠ []) :
    (a ++ b).head? = a.head? := by
  cases a with
  | nil => exact absurd rfl ha
  | cons x r => rfl

theorem marker_drop_prefix_transfer :
    ∀ (cs : List Chunk) (j k : Nat), 1 ≤ k → k ≤ marker.length →
      (marker.drop k) <+: renderMasked j cs → (marker.drop k) <+: renderOrig cs := by
  intro cs
  induction cs with
  | nil => intro j k _ _ h; exact h
  | cons ch rest ih =>
    intro j k h1 h2 h
    cases ch with
    | lit c =>
      by_cases hk : k = marker.length
      · subst hk
        rw [List.drop_length]
        exact List.nil_prefix
      · have hk2 : k < marker.length := by omega
        have hdk : marker.drop k = marker[k] :: marker.drop (k + 1) := List.drop_eq_getElem_cons hk2
        rw [renderMasked_lit, hdk, List.cons_prefix_cons] at h
        obtain ⟨hc, htail⟩ := h
        have := ih j (k + 1) (by omega) (by omega) htail
        rw [renderOrig_lit, hdk, List.cons_prefix_cons]
        exact ⟨hc, this⟩
    | spec s =>
      by_cases hk : k = marker.length
      · subst hk
        rw [List.drop_length]
        exact List.nil_prefix
      · exfalso
        have hk2 : k < marker.length := by omega
        rw [renderMasked_spec] at h
        have hlen : (marker.drop k).length = marker.length - k := by simp
        have h3 : marker.drop k = (token j ++ renderMasked (j + 1) rest).take (marker.length - k) := by
          have := List.prefix_iff_eq_take.mp h
          rw [this, hlen]
        have h4 : (token j ++ renderMasked (j + 1) rest).take (marker.length - k) =
            marker.take (marker.length - k) := by
          rw [token, List.append_assoc]
          exact List.take_append_of_le_length (by omega)
        rw [h4] at h3
        exact marker_border k hk2 h1 h3.symm

theorem token_not_in_masked :
    ∀ (cs : List Chunk) (j i : Nat), i < j → j + (specsOf cs).length ≤ 10 →
      ¬ Occurs marker (renderOrig cs) → ¬ Occurs (token i) (renderMasked j cs) := by
  intro cs
  induction cs with
  | nil =>
    intro j i _ _ _ hocc
    obtain ⟨A, B, h⟩ := hocc
    have : token i = [] := by
      rcases List.append_eq_nil.mp h.symm with ⟨h1, _⟩
      exact (List.append_eq_nil.mp h1).2
    exact token_ne_nil i this
  | cons ch rest ih =>
    intro j i h1 h2 h3 hocc
    cases ch with
    | lit c =>
      rw [renderMasked_lit] at hocc
      rcases occurs_cons.mp hocc with hpre | htail
      · have hm : marker <+: c :: renderMasked j rest := by
          have hsub : marker <+: token i := by
            rw [token]
            exact List.prefix_append marker _
          exact hsub.trans hpre
        rw [marker_head_cons, List.cons_prefix_cons] at hm
        obtain ⟨hc, htl2⟩ := hm
        have htr := marker_drop_prefix_transfer rest j 1 (le_refl 1)
          (by rw [marker_length]; omega) htl2
        apply h3
        rw [renderOrig_lit]
        apply occurs_of_pref
        rw [marker_head_cons, List.cons_prefix_cons]
        exact ⟨hc, htr⟩
      · refine ih j i h1 ?_ ?_ htail
        · rw [specsOf_lit] at h2; exact h2
        · intro hx
          apply h3
          rw [renderOrig_lit]
          exact occurs_cons.mpr (Or.inr hx)
    | spec s =>
      have hj10 : j < 10 := by
        rw [specsOf_spec] at h2
        simp only [List.length_cons] at h2
        omega
      have hi10 : i < 10 := lt_trans h1 hj10
      rw [renderMasked_spec] at hocc
      rcases occurs_append_decomp hocc with ⟨k, hk, hpre⟩ | htail
      · by_cases hk0 : k = 0
        · subst hk0
          rw [List.drop_zero, token, token, List.append_assoc,
            List.prefix_append_right_inj] at hpre
          have hh : ((Nat.repr j).data ++ renderMasked (j + 1) rest).head? =
              ((Nat.repr i).data).head? :=
            prefix_head?_eq hpre (dstr_ne_nil i hi10)
          rw [head?_append_of_ne_nil _ (dstr_ne_nil j hj10)] at hh
          have := dstr_head_inj i hi10 j hj10 hh.symm
          omega
        · have h1k : 1 ≤ k := by omega
          have hYP : ((token j).drop k ++ renderMasked (j + 1) rest).head? = some 'P' := by
            rw [prefix_head?_eq hpre (token_ne_nil i), token_eq_cons]
            rfl
          have hdjlen : ((Nat.repr j).data).length = 1 := dstr_len1 j hj10
          have htoklen : (token j).length = 15 := by
            rw [token]
            simp [marker_length, hdjlen]
          by_cases hk14 : k < marker.length
          · have hdropk : (token j).drop k = marker.drop k ++ (Nat.repr j).data := by
              rw [token]
              exact List.drop_append_of_le_length (le_of_lt hk14)
            have hne : marker.drop k ≠ [] := by
              intro hx
              rw [List.drop_eq_nil_iff] at hx
              omega
            rw [hdropk, List.append_assoc, head?_append_of_ne_nil _ hne] at hYP
            exact marker_drop_head k hk14 h1k hYP
          · have hk14' : k = marker.length := by
              rw [htoklen] at hk
              rw [marker_length]
              rw [marker_length] at hk14
              omega
            have hdropk : (token j).drop k = (Nat.repr j).data := by
              rw [token, hk14']
              exact List.drop_left marker _
            rw [hdropk, head?_append_of_ne_nil _ (dstr_ne_nil j hj10)] at hYP
            exact dstr_head_ne_P j hj10 hYP
      · refine ih (j + 1) i (by omega) ?_ ?_ htail
        · rw [specsOf_spec] at h2
          simp only [List.length_cons] at h2
          omega
        · intro hx
          apply h3
          rw [renderOrig_spec]
          exact occurs_append_right hx

theorem mapFrom_length : ∀ (cs : List Chunk) (i : Nat),
    (mapFrom i cs).length = (specsOf cs).length := by
  intro cs
  induction cs with
  | nil => intro i; rfl
  | cons ch rest ih =>
    intro i
    cases ch with
    | lit c => rw [mapFrom_lit, specsOf_lit]; exact ih i
    | spec s =>
      rw [mapFrom_spec, specsOf_spec]
      simp only [List.length_cons]
      rw [ih (i + 1)]

theorem renderMasked_eq_nil : ∀ (cs : List Chunk) (i : Nat),
    renderMasked i cs = [] → cs = [] := by
  intro cs i h
  cases cs with
  | nil => rfl
  | cons ch rest =>
    cases ch with
    | lit c => simp [renderMasked_lit] at h
    | spec s =>
      rw [renderMasked_spec] at h
      exact absurd (List.append_eq_nil.mp h).1 (token_ne_nil i)

theorem renderMasked_of_no_specs : ∀ (cs : List Chunk) (i : Nat),
    specsOf cs = [] → renderMasked i cs = renderOrig cs := by
  intro cs
  induction cs with
  | nil => intro i _; rfl
  | cons ch rest ih =>
    intro i h
    cases ch with
    | lit c =>
      rw [specsOf_lit] at h
      rw [renderMasked_lit, renderOrig_lit, ih i h]
    | spec s =>
      rw [specsOf_spec] at h
      simp at h

theorem restore_fold :
    ∀ (cs : List Chunk) (i : Nat) (P : Chars),
      i + (specsOf cs).length ≤ 10 →
      ¬ Occurs marker (P ++ renderOrig cs) →
      (mapFrom i cs).foldl (fun acc pr => replaceAll pr.1 pr.2 acc) (P ++ renderMasked i cs) =
        P ++ renderOrig cs := by
  intro cs
  induction cs with
  | nil => intro i P _ _; rfl
  | cons ch rest ih =>
    intro i P h1 h2
    cases ch with
    | lit c =>
      rw [mapFrom_lit, renderMasked_lit, renderOrig_lit]
      have hm1 : i + (specsOf rest).length ≤ 10 := by rw [specsOf_lit] at h1; exact h1
      have hm2 : ¬ Occurs marker ((P ++ [c]) ++ renderOrig rest) := by
        intro hx
        apply h2
        rw [renderOrig_lit]
        rw [List.append_assoc] at hx
        simpa using hx
      have := ih i (P ++ [c]) hm1 hm2
      rw [show P ++ c :: renderMasked i rest = (P ++ [c]) ++ renderMasked i rest by simp]
      rw [this]
      simp
    | spec s =>
      have hi10 : i < 10 := by
        rw [specsOf_spec] at h1
        simp only [List.length_cons] at h1
        omega
      rw [mapFrom_spec, renderMasked_spec, renderOrig_spec]
      rw [List.foldl_cons]
      have hnotP : ¬ Occurs (token i) P := by
        intro hx
        apply h2
        exact occurs_append_left (occurs_marker_of_occurs_token hx)
      have hnorest : ¬ Occurs marker (renderOrig rest) := by
        intro hx
        apply h2
        rw [renderOrig_spec, ← List.append_assoc]
        exact occurs_append_right hx
      have hstep : replaceAll (token i) s (P ++ (token i ++ renderMasked (i + 1) rest)) =
          P ++ s ++ replaceAll (token i) s (renderMasked (i + 1) rest) := by
        rw [← List.append_assoc]
        exact replaceAll_mid s (token_eq_cons i) (P_not_mem_token_tail i hi10)
          (renderMasked (i + 1) rest) hnotP
      have hnum : (i + 1) + (specsOf rest).length ≤ 10 := by
        rw [specsOf_spec] at h1
        simp only [List.length_cons] at h1
        omega
      have hid : replaceAll (token i) s (renderMasked (i + 1) rest) =
          renderMasked (i + 1) rest :=
        replaceAll_of_not_occurs
          (token_not_in_masked rest (i + 1) i (lt_add_one i) hnum hnorest)
      rw [hstep, hid]
      have hm2 : ¬ Occurs marker ((P ++ s) ++ renderOrig rest) := by
        intro hx
        apply h2
        rw [renderOrig_spec, ← List.append_assoc]
        exact hx
      have := ih (i + 1) (P ++ s) hnum hm2
      rw [this]
      simp

/-- C1 (amended): for every text that does not contain the marker substring
    PLACEHOLDERXYZ and whose extraction yields at most ten matches,
    restoring the masked text with the produced placeholder map returns the
    original text exactly. -/
theorem extract_restore_roundtrip (t : Chars)
    (hmark : hasSub marker t = false)
    (hcount : (extract_placeholders t).2.length ≤ 10) :
    restore_placeholders (extract_placeholders t).1 (extract_placeholders t).2 = t := by
  have hNo : ¬ Occurs marker t := not_occurs_of_hasSub_eq_false hmark
  have horig : renderOrig (scanText t) = t := renderOrig_scanText t
  show restore_placeholders (renderMasked 0 (scanText t)) (mapFrom 0 (scanText t)) = t
  unfold restore_placeholders
  by_cases hnil : renderMasked 0 (scanText t) = [] ∨ mapFrom 0 (scanText t) = []
  · rw [if_pos hnil]
    rcases hnil with h | h
    · have hcs : scanText t = [] := renderMasked_eq_nil (scanText t) 0 h
      rw [h, ← horig, hcs]
      rfl
    · have hlen0 : (specsOf (scanText t)).length = 0 := by
        rw [← mapFrom_length (scanText t) 0, h]
        rfl
      have hspec : specsOf (scanText t) = [] := List.eq_nil_of_length_eq_zero hlen0
      rw [renderMasked_of_no_specs (scanText t) 0 hspec, horig]
  · rw [if_neg hnil]
    have hlen : (mapFrom 0 (scanText t)).length = (specsOf (scanText t)).length :=
      mapFrom_length (scanText t) 0
    have h1 : 0 + (specsOf (scanText t)).length ≤ 10 := by
      rw [← hlen]
      simpa using hcount
    have h2 : ¬ Occurs marker ([] ++ renderOrig (scanText t)) := by
      rw [List.nil_append, horig]
      exact hNo
    have := restore_fold (scanText t) 0 [] h1 h2
    rw [List.nil_append, List.nil_append, horig] at this
    exact this

/-- Witness for C1 at a text containing percent conversions, a brace span
    and two adjacent identical specifiers. -/
theorem extract_restore_roundtrip_witness :
    restore_placeholders (extract_placeholders ("Hi %@, \x7bname\x7d %d%d".data)).1
      (extract_placeholders ("Hi %@, \x7bname\x7d %d%d".data)).2 =
      "Hi %@, \x7bname\x7d %d%d".data :=
  extract_restore_roundtrip ("Hi %@, \x7bname\x7d %d%d".data) (by decide) (by decide)

/-- C1 counterexample: a text that already contains the synthetic token
    PLACEHOLDERXYZ0 breaks the round trip, since restoration replaces both
    occurrences of the token in the masked text. -/
theorem extract_restore_roundtrip_counterexample :
    restore_placeholders (extract_placeholders ("PLACEHOLDERXYZ0%d".data)).1
      (extract_placeholders ("PLACEHOLDERXYZ0%d".data)).2 ≠ "PLACEHOLDERXYZ0%d".data := by
  decide
